import Mathlib

/-!
Verification development for the factor backtesting engine in
`src/etl/backtest_mvp.py` (IC / layered returns / portfolio NAV).

Shallow embedding conventions:
* trade dates are integer day ordinals (`Int`), so `DATEADD(DAY, 400, e)` is `e + 400`;
* SQL `FLOAT` arithmetic is modelled exactly over `ℚ`; `SQRT` is `Real.sqrt` over `ℝ`;
* SQL `NULL` is `Option`; `ISNULL(x, d)` is `Option.getD`;
* result tables are lists of record rows; the delete-then-insert persistence and the
  commit/rollback flow of `main` are modelled explicitly with a connection state.
-/

namespace Backtest

/-! ### Python string helpers (str.strip / str.split / str.upper) -/

/-- Python `str.strip()`: drop whitespace from both ends. -/
def strip (s : String) : String :=
  String.mk (((s.toList.dropWhile Char.isWhitespace).reverse.dropWhile Char.isWhitespace).reverse)

/-- Python `s.split(",")`. -/
def splitComma (s : String) : List String :=
  (s.toList.foldr (fun c acc =>
    match acc with
    | [] => [[c]]
    | h :: t => if c = ',' then [] :: h :: t else (c :: h) :: t) [[]]).map String.mk

/-- Python `str.upper()`. -/
def upper (s : String) : String := String.mk (s.toList.map Char.toUpper)

/-! ### validate_factor_name (backtest_mvp.py lines 217-228) -/

/-- The regex `^[A-Za-z_][A-Za-z0-9_]*$` (`_IDENT_RE`). -/
def identMatch (s : String) : Bool :=
  match s.toList with
  | [] => false
  | c :: cs => (c.isAlpha || c == '_') && cs.all (fun x => x.isAlphanum || x == '_')

/-- `validate_factor_name`: strip, non-empty, regex match, membership in the score
feed's columns.  `true` means the name is accepted, `false` means a `ValueError`. -/
def validate_factor_name (factor : String) (cols : List String) : Bool :=
  let f := strip factor
  (!(f == "")) && identMatch f && cols.contains f

/-- The fixed `ALL` candidate list in `main` (lines 615-626). -/
def all_candidates : List String :=
  ["total_score", "total_score_ind", "score_profit", "score_operation", "score_growth",
   "score_safety", "score_cashflow", "score_valuation", "score_dividend", "score_size"]

/-- Factor-list resolution in `main` (lines 613-629): literal `ALL` expands to the
candidate columns that exist; otherwise split on commas, strip, drop empties. -/
def factorsOf (factorArg : String) (cols : List String) : List String :=
  if upper (strip factorArg) == "ALL" then all_candidates.filter (fun f => cols.contains f)
  else ((splitComma factorArg).map strip).filter (fun f => !(f == ""))

/-- `portfolio_code = f"TOP{topn}_{factor}_H{nav_horizon}_D"` (line 398). -/
def portfolio_code_of (topn : Nat) (factor : String) (nav_horizon : Nat) : String :=
  "TOP" ++ toString topn ++ "_" ++ factor ++ "_H" ++ toString nav_horizon ++ "_D"

/-! ### Feed rows -/

/-- A row of `dbo.dwd_stock_basic_all` (the universe/reference feed). -/
structure BasicRow where
  code : String
  sec_type : Option Int
  status : Option Int
deriving DecidableEq, Repr

/-- A row of `dbo.dws_stock_score_daily` restricted to one factor column:
`factor_val` is the value of `s.[factor]` (NULL allowed). -/
structure ScoreRow where
  ts_code : String
  trade_date : Int
  factor_val : Option ℚ
deriving DecidableEq, Repr

/-- A row of `dbo.dwd_kline_daily_raw`. -/
structure KlineRow where
  code : String
  trade_date : Int
  close : Option ℚ
  tradestatus : Option Int
  is_st : Option Int
deriving DecidableEq, Repr

/-- SQL `ISNULL(x, d)` on integer columns. -/
def isnull (o : Option Int) (d : Int) : Int := o.getD d

/-! ### The `score` CTE (identical text in the ic, layer, holdings and ret queries) -/

/-- A row of the `score` CTE. -/
structure ScRow where
  trade_date : Int
  ts_code : String
  factor_val : ℚ
deriving DecidableEq, Repr

/-- The basics join condition: `ISNULL(b.sec_type,1)=1 AND ISNULL(b.status,1)=1`
for some basics row with `b.code = s.ts_code`. -/
def basicOk (basics : List BasicRow) (c : String) : Bool :=
  basics.any (fun b => b.code == c && isnull b.sec_type 1 == 1 && isnull b.status 1 == 1)

/-- The `score` CTE: scored rows in `[start, end]` with a non-NULL factor value whose
code passes the basics join. -/
def scoreCTE (scores : List ScoreRow) (basics : List BasicRow) (s e : Int) : List ScRow :=
  scores.filterMap (fun r =>
    match r.factor_val with
    | none => none
    | some v =>
      if decide (s ≤ r.trade_date) && decide (r.trade_date ≤ e) && basicOk basics r.ts_code
      then some ⟨r.trade_date, r.ts_code, v⟩ else none)

/-! ### The `ret` CTE: forward returns via `LEAD(close, h)` -/

/-- The `WHERE` filter of the `ret` CTE: date in `[start, end+400]`,
`ISNULL(tradestatus,1)=1`, `ISNULL(is_st,0)=0`. -/
def klineFiltered (ks : List KlineRow) (s e : Int) : List KlineRow :=
  ks.filter (fun k => decide (s ≤ k.trade_date) && decide (k.trade_date ≤ e + 400)
    && isnull k.tradestatus 1 == 1 && isnull k.is_st 0 == 0)

/-- The dates of one code's partition (`PARTITION BY k.code`). -/
def partDates (f : List KlineRow) (c : String) : List Int :=
  (f.filter (fun k => k.code == c)).map KlineRow.trade_date

/-- Position of date `d` in the date-ordered partition: the number of strictly
earlier dates in the partition. -/
def posOf (part : List Int) (d : Int) : Nat :=
  (part.filter (fun x => decide (x < d))).length

/-- `LEAD(k.close, h) OVER (PARTITION BY k.code ORDER BY k.trade_date)`: the close of
the row `h` positions later in the code's date-ordered partition, NULL if none. -/
def leadClose (f : List KlineRow) (c : String) (d : Int) (h : Nat) : Option ℚ :=
  match (f.filter (fun k => k.code == c)).find?
      (fun k => posOf (partDates f c) k.trade_date == posOf (partDates f c) d + h) with
  | none => none
  | some k => k.close

/-- `(LEAD(close,h) - close) / NULLIF(close, 0)` with SQL NULL propagation. -/
def ret_fwd_of (f : List KlineRow) (h : Nat) (k : KlineRow) : Option ℚ :=
  match k.close, leadClose f k.code k.trade_date h with
  | some c, some c2 => if c = 0 then none else some ((c2 - c) / c)
  | _, _ => none

/-- A row of the `ret` CTE. -/
structure RetRow where
  code : String
  trade_date : Int
  ret_fwd : Option ℚ
deriving DecidableEq, Repr

/-- The `ret` CTE. -/
def retCTE (ks : List KlineRow) (s e : Int) (h : Nat) : List RetRow :=
  (klineFiltered ks s e).map
    (fun k => ⟨k.code, k.trade_date, ret_fwd_of (klineFiltered ks s e) h k⟩)

/-! ### The `base` CTE -/

/-- A row of the `base` CTE: an eligible (date, code) with non-NULL factor value and
non-NULL forward return. -/
structure BaseRow where
  trade_date : Int
  ts_code : String
  factor_val : ℚ
  ret_fwd : ℚ
deriving DecidableEq, Repr

/-- `base`: join `score` to `ret` on (code, date), keeping non-NULL `ret_fwd`. -/
def baseCTE (scores : List ScoreRow) (basics : List BasicRow) (ks : List KlineRow)
    (s e : Int) (h : Nat) : List BaseRow :=
  (scoreCTE scores basics s e).filterMap (fun t =>
    match (retCTE ks s e h).find? (fun r => r.code == t.ts_code && r.trade_date == t.trade_date) with
    | none => none
    | some r =>
      match r.ret_fwd with
      | none => none
      | some v => some ⟨t.trade_date, t.ts_code, t.factor_val, v⟩)

/-- The base cross-section of the IC query (`sql_ic`, lines 254-275). -/
def icBase (scores : List ScoreRow) (basics : List BasicRow) (ks : List KlineRow)
    (s e : Int) (h : Nat) : List BaseRow := baseCTE scores basics ks s e h

/-- The base cross-section of the layer query (`sql_layer`, lines 346-367). -/
def layerBase (scores : List ScoreRow) (basics : List BasicRow) (ks : List KlineRow)
    (s e : Int) (h : Nat) : List BaseRow := baseCTE scores basics ks s e h

/-- The base cross-section of the portfolio-return query (`sql_ret`, lines 460-481). -/
def navRetBase (scores : List ScoreRow) (basics : List BasicRow) (ks : List KlineRow)
    (s e : Int) (h : Nat) : List BaseRow := baseCTE scores basics ks s e h

/-- Full eligibility as the spec describes it: plain equity, active status, trading
active on the date and not special-treatment on the date. -/
def eligible_full (basics : List BasicRow) (ks : List KlineRow) (c : String) (d : Int) : Bool :=
  basicOk basics c && ks.any (fun k => k.code == c && k.trade_date == d
    && isnull k.tradestatus 1 == 1 && isnull k.is_st 0 == 0)

/-! ### IC: aggregated moments and the Pearson CASE expression -/

/-- The six aggregates of `agg_raw` / `agg_rank`. -/
structure Moments where
  n : ℚ
  sumx : ℚ
  sumy : ℚ
  sumx2 : ℚ
  sumy2 : ℚ
  sumxy : ℚ
deriving DecidableEq, Repr

/-- One row's contribution to the SQL aggregates. -/
def aggStep (m : Moments) (p : ℚ × ℚ) : Moments :=
  ⟨m.n + 1, m.sumx + p.1, m.sumy + p.2, m.sumx2 + p.1 * p.1,
   m.sumy2 + p.2 * p.2, m.sumxy + p.1 * p.2⟩

/-- `COUNT/SUM/SUM(x*x)/...` over a day's (factor_val, ret_fwd) pairs, as a single
aggregation pass. -/
def agg_raw (ps : List (ℚ × ℚ)) : Moments := ps.foldl aggStep ⟨0, 0, 0, 0, 0, 0⟩

/-- The `CASE WHEN ... THEN NULL ELSE (n*sumxy - sumx*sumy) / SQRT(...) END`
expression of `sql_ic` (lines 316-320). -/
noncomputable def icCase (m : Moments) : Option ℝ :=
  if m.n * m.sumx2 - m.sumx * m.sumx = 0 ∨ m.n * m.sumy2 - m.sumy * m.sumy = 0 then none
  else some (((m.n * m.sumxy - m.sumx * m.sumy : ℚ) : ℝ)
    / Real.sqrt (((m.n * m.sumx2 - m.sumx * m.sumx) * (m.n * m.sumy2 - m.sumy * m.sumy) : ℚ) : ℝ))

/-- `DENSE_RANK() OVER (PARTITION BY trade_date ORDER BY v)`: one plus the number of
distinct values strictly smaller than `v` in the day's cross-section. -/
def dense_rank (vals : List ℚ) (v : ℚ) : Nat :=
  1 + (vals.dedup.filter (fun x => decide (x < v))).length

/-- The `ranked` CTE: each base pair replaced by its dense ranks within the day. -/
def rankedPairs (ps : List (ℚ × ℚ)) : List (ℚ × ℚ) :=
  ps.map (fun p => ((dense_rank (ps.map Prod.fst) p.1 : ℚ), (dense_rank (ps.map Prod.snd) p.2 : ℚ)))

/-- The stored `ic` of a day with cross-section `ps`. -/
noncomputable def storedIC (ps : List (ℚ × ℚ)) : Option ℝ := icCase (agg_raw ps)

/-- The stored `rank_ic` of a day with cross-section `ps`. -/
noncomputable def storedRankIC (ps : List (ℚ × ℚ)) : Option ℝ := icCase (agg_raw (rankedPairs ps))

/-! ### Spec-side Pearson formula (written from the spec's words) -/

def nOf (ps : List (ℚ × ℚ)) : ℚ := ps.length

def sxOf (ps : List (ℚ × ℚ)) : ℚ := (ps.map Prod.fst).sum

def syOf (ps : List (ℚ × ℚ)) : ℚ := (ps.map Prod.snd).sum

def sx2Of (ps : List (ℚ × ℚ)) : ℚ := (ps.map (fun p => p.1 * p.1)).sum

def sy2Of (ps : List (ℚ × ℚ)) : ℚ := (ps.map (fun p => p.2 * p.2)).sum

def sxyOf (ps : List (ℚ × ℚ)) : ℚ := (ps.map (fun p => p.1 * p.2)).sum

/-- The spec's Pearson formula `(nΣxy - ΣxΣy) / sqrt((nΣx² - (Σx)²)(nΣy² - (Σy)²))`,
null if either denominator factor is zero. -/
noncomputable def pearson_spec (ps : List (ℚ × ℚ)) : Option ℝ :=
  if nOf ps * sx2Of ps - (sxOf ps) ^ 2 = 0 ∨ nOf ps * sy2Of ps - (syOf ps) ^ 2 = 0 then none
  else some (((nOf ps * sxyOf ps - sxOf ps * syOf ps : ℚ) : ℝ)
    / Real.sqrt (((nOf ps * sx2Of ps - (sxOf ps) ^ 2) * (nOf ps * sy2Of ps - (syOf ps) ^ 2) : ℚ) : ℝ))

/-- The rank the claim describes: ties share a rank and the next distinct value's rank
skips ahead by the tie-group size (`RANK()`-style: one plus the number of strictly
smaller elements, multiplicity included). -/
def skip_rank (vals : List ℚ) (v : ℚ) : Nat :=
  1 + (vals.filter (fun x => decide (x < v))).length

/-- Pairs replaced by the claim's skip-style ranks. -/
def skipRankedPairs (ps : List (ℚ × ℚ)) : List (ℚ × ℚ) :=
  ps.map (fun p => ((skip_rank (ps.map Prod.fst) p.1 : ℚ), (skip_rank (ps.map Prod.snd) p.2 : ℚ)))

/-- Spec-side dense rank: one plus the number of distinct strictly smaller values,
counted by deduplicating the strictly smaller elements. -/
def dense_rank_spec (vals : List ℚ) (v : ℚ) : Nat :=
  1 + ((vals.filter (fun x => decide (x < v))).dedup).length

/-- Pairs replaced by spec-side dense ranks. -/
def denseRankedPairsSpec (ps : List (ℚ × ℚ)) : List (ℚ × ℚ) :=
  ps.map (fun p => ((dense_rank_spec (ps.map Prod.fst) p.1 : ℚ),
                    (dense_rank_spec (ps.map Prod.snd) p.2 : ℚ)))

/-! ### The IC result table -/

/-- `AVG` over a list of rationals. -/
def meanOf (l : List ℚ) : ℚ := l.sum / l.length

/-- `STDEV` (sample standard deviation), NULL when fewer than two samples. -/
noncomputable def stdevOf (l : List ℚ) : Option ℝ :=
  if l.length ≤ 1 then none
  else some (Real.sqrt (((((l.length : ℚ) * (l.map (fun x => x * x)).sum - l.sum ^ 2)
    / ((l.length : ℚ) * ((l.length : ℚ) - 1))) : ℚ) : ℝ))

/-- A row of `dbo.dws_factor_ic_daily` (inserted columns). -/
structure ICRow where
  factor_name : String
  horizon : Nat
  trade_date : Int
  ic : Option ℝ
  rank_ic : Option ℝ
  n : Nat
  mean_ret : ℚ
  std_ret : Option ℝ

/-- A day's (factor_val, ret_fwd) pairs in the base cross-section. -/
def dayPairs (base : List BaseRow) (d : Int) : List (ℚ × ℚ) :=
  (base.filter (fun r => r.trade_date == d)).map (fun r => (r.factor_val, r.ret_fwd))

/-- The rows inserted by `sql_ic`: one row per base day (`GROUP BY trade_date`)
surviving `WHERE a.n >= min_n`. -/
noncomputable def icTable (factor : String) (h : Nat) (minN : Int)
    (base : List BaseRow) : List ICRow :=
  ((base.map BaseRow.trade_date).dedup).filterMap (fun d =>
    if decide (minN ≤ ((dayPairs base d).length : Int)) then
      some ⟨factor, h, d, storedIC (dayPairs base d), storedRankIC (dayPairs base d),
            (dayPairs base d).length, meanOf ((dayPairs base d).map Prod.snd),
            stdevOf ((dayPairs base d).map Prod.snd)⟩
    else none)

/-! ### NTILE layering -/

/-- `NTILE(L)` as successive chunks: with `n = L*q + r` the first `r` chunks have
`q+1` rows and the rest have `q` rows; `ntileChunks` peels the first chunk and
recurses on the remaining `L-1` tiles. -/
def ntileChunks : (L : Nat) → List α → List (List α)
  | 0, _ => []
  | L + 1, xs =>
    xs.take (xs.length / (L + 1) + (if xs.length % (L + 1) = 0 then 0 else 1)) ::
      ntileChunks L (xs.drop (xs.length / (L + 1) + (if xs.length % (L + 1) = 0 then 0 else 1)))

/-- The arithmetic tile sizes of `NTILE(L)` over `n` rows. -/
def sizesNT (L n : Nat) : List Nat :=
  (List.range L).map (fun k => n / L + if k < n % L then 1 else 0)

/-- A row of `dbo.dws_factor_layer_ret_daily` (inserted columns). -/
structure LayerRow where
  factor_name : String
  horizon : Nat
  trade_date : Int
  layer : Nat
  n : Nat
  avg_ret : ℚ
deriving DecidableEq, Repr

/-- One day's layer rows: `NTILE(L)` over the day's pairs ordered by factor value
descending; `GROUP BY layer` emits a row per non-empty tile with its count and
average forward return.  `xs` is the day's cross-section in the window order. -/
def dayLayerRows (factor : String) (h : Nat) (L : Nat) (d : Int)
    (xs : List (ℚ × ℚ)) : List LayerRow :=
  (ntileChunks L xs).enum.filterMap (fun kc =>
    if kc.2.length = 0 then none
    else some ⟨factor, h, d, kc.1 + 1, kc.2.length, meanOf (kc.2.map Prod.snd)⟩)

/-- Deterministic model of `ORDER BY factor_val DESC` over a day's pairs. -/
def sortPairsDesc (l : List (ℚ × ℚ)) : List (ℚ × ℚ) :=
  l.insertionSort (fun a b => b.1 ≤ a.1)

/-- The rows inserted by `sql_layer`. -/
def layerTable (factor : String) (h : Nat) (L : Nat) (base : List BaseRow) : List LayerRow :=
  ((base.map BaseRow.trade_date).dedup).flatMap (fun d =>
    dayLayerRows factor h L d (sortPairsDesc (dayPairs base d)))

/-! ### Holdings (`sql_hold`, lines 413-451) -/

/-- A row of `dbo.dws_portfolio_holdings_daily` (inserted columns). -/
structure HoldRow where
  portfolio_code : String
  trade_date : Int
  ts_code : String
  weight : ℚ
  rank_in_day : Nat
deriving DecidableEq, Repr

/-- Deterministic model of `ROW_NUMBER() OVER (... ORDER BY factor_val DESC)` order. -/
def sortScoreDesc (l : List ScRow) : List ScRow :=
  l.insertionSort (fun a b => b.factor_val ≤ a.factor_val)

/-- The day's picked rows: `rn <= topn` over the `score` CTE only (no kline join). -/
def dayPickScore (rows : List ScRow) (topn : Nat) : List ScRow :=
  (sortScoreDesc rows).take topn

/-- The rows inserted by `sql_hold`: the picked rows of each scored day, weighted
`1 / cnt` with `rn` recorded. -/
def holdingsTable (pc : String) (scores : List ScoreRow) (basics : List BasicRow)
    (s e : Int) (topn : Nat) : List HoldRow :=
  let sc := scoreCTE scores basics s e
  ((sc.map ScRow.trade_date).dedup).flatMap (fun d =>
    let picked := dayPickScore (sc.filter (fun r => r.trade_date == d)) topn
    picked.enum.map (fun ir => ⟨pc, d, ir.2.ts_code, 1 / (picked.length : ℚ), ir.1 + 1⟩))

/-! ### Portfolio NAV (`calc_portfolio_nav`, lines 499-548) -/

/-- A row of `dbo.dws_portfolio_nav_daily` (inserted columns). -/
structure NavRow where
  portfolio_code : String
  trade_date : Int
  nav : ℚ
  daily_ret : Option ℚ
  hold_cnt : Option Int
deriving DecidableEq, Repr

/-- Deterministic model of `ORDER BY factor_val DESC` over base rows. -/
def sortPairsDescBase (l : List BaseRow) : List BaseRow :=
  l.insertionSort (fun a b => b.factor_val ≤ a.factor_val)

/-- The per-day top-`topn` rows of the `sql_ret` ranking (full base, kline join
included). -/
def topRetRows (base : List BaseRow) (d : Int) (topn : Nat) : List BaseRow :=
  (sortPairsDescBase (base.filter (fun r => r.trade_date == d))).take topn

/-- `ret_map`: the day's portfolio return (`AVG(ret_fwd)` over the picked rows),
absent when the day has no base rows. -/
def ret_map_of (base : List BaseRow) (topn : Nat) (d : Int) : Option ℚ :=
  let l := topRetRows base d topn
  if l.length = 0 then none else some (meanOf (l.map BaseRow.ret_fwd))

/-- `cnt_map`: the day's `hold_cnt`. -/
def cnt_map_of (base : List BaseRow) (topn : Nat) (d : Int) : Option Int :=
  let l := topRetRows base d topn
  if l.length = 0 then none else some (l.length : Int)

/-- The trading calendar used by the NAV loop: distinct kline dates in
`[start, end+400]`, ordered, then restricted to `[start, end]`. -/
def calDatesOf (ks : List KlineRow) (s e : Int) : List Int :=
  ((((ks.filter (fun k => decide (s ≤ k.trade_date) && decide (k.trade_date ≤ e + 400))).map
      KlineRow.trade_date).dedup).insertionSort (fun a b => a ≤ b)).filter
    (fun d => decide (s ≤ d) && decide (d ≤ e))

/-- The NAV compounding loop body (lines 529-539), for indices `i ≥ 1`: `prev` is the
previous calendar date and `nav` the NAV written at it. -/
def navLoop (pc : String) (retMap : Int → Option ℚ) (cntMap : Int → Option Int) :
    Int → ℚ → List Int → List NavRow
  | _, _, [] => []
  | prev, nav, d :: rest =>
    match retMap prev with
    | none => ⟨pc, d, nav, none, none⟩ :: navLoop pc retMap cntMap d nav rest
    | some r => ⟨pc, d, nav * (1 + r), some r, cntMap prev⟩ ::
        navLoop pc retMap cntMap d (nav * (1 + r)) rest

/-- The full list of NAV rows written by `calc_portfolio_nav` for a calendar:
the first date gets NAV 1.0 with NULL return, later dates compound. -/
def calc_portfolio_nav_rows (pc : String) (retMap : Int → Option ℚ)
    (cntMap : Int → Option Int) (calDates : List Int) : List NavRow :=
  match calDates with
  | [] => []
  | d0 :: rest => ⟨pc, d0, 1, none, none⟩ :: navLoop pc retMap cntMap d0 1 rest

/-- The step relation between consecutive written NAV rows: the return realized on
the previous calendar date (if any) is applied to the NAV at the current date and
recorded as its `daily_ret`; otherwise NAV is carried forward with NULL return. -/
def navStep (retMap : Int → Option ℚ) (a b : NavRow) : Prop :=
  b.daily_ret = retMap a.trade_date ∧
  b.nav = match retMap a.trade_date with
          | none => a.nav
          | some r => a.nav * (1 + r)

/-- The NAV rows of a full `calc_portfolio_nav` run from the feeds. -/
def navTable (pc : String) (scores : List ScoreRow) (basics : List BasicRow)
    (ks : List KlineRow) (s e : Int) (hnav : Nat) (topn : Nat) : List NavRow :=
  calc_portfolio_nav_rows pc
    (ret_map_of (navRetBase scores basics ks s e hnav) topn)
    (cnt_map_of (navRetBase scores basics ks s e hnav) topn)
    (calDatesOf ks s e)

/-! ### Result store: delete-then-insert over the four result tables -/

/-- Key-space predicate of the IC delete (line 239). -/
def keyIC (factor : String) (h : Nat) (s e : Int) (r : ICRow) : Bool :=
  r.factor_name == factor && r.horizon == h
    && decide (s ≤ r.trade_date) && decide (r.trade_date ≤ e)

/-- Key-space predicate of the layer delete (line 244). -/
def keyLayer (factor : String) (h : Nat) (s e : Int) (r : LayerRow) : Bool :=
  r.factor_name == factor && r.horizon == h
    && decide (s ≤ r.trade_date) && decide (r.trade_date ≤ e)

/-- Key-space predicate of the NAV delete (line 403). -/
def keyNav (pc : String) (s e : Int) (r : NavRow) : Bool :=
  r.portfolio_code == pc && decide (s ≤ r.trade_date) && decide (r.trade_date ≤ e)

/-- Key-space predicate of the holdings delete (line 408). -/
def keyHold (pc : String) (s e : Int) (r : HoldRow) : Bool :=
  r.portfolio_code == pc && decide (s ≤ r.trade_date) && decide (r.trade_date ≤ e)

/-- The four result tables. -/
structure DBState where
  ic : List ICRow
  layer : List LayerRow
  hold : List HoldRow
  nav : List NavRow

/-- One factor's full recompute over the key space: delete-then-insert on all four
result tables (`calc_ic_and_layer` followed by `calc_portfolio_nav`). -/
noncomputable def backtest_run (factor : String) (icH : Nat) (L : Nat) (minN : Int)
    (hnav : Nat) (topn : Nat) (scores : List ScoreRow) (basics : List BasicRow)
    (ks : List KlineRow) (s e : Int) (st : DBState) : DBState :=
  let pc := portfolio_code_of topn factor hnav
  { ic := st.ic.filter (fun r => !(keyIC factor icH s e r))
      ++ icTable factor icH minN (icBase scores basics ks s e icH),
    layer := st.layer.filter (fun r => !(keyLayer factor icH s e r))
      ++ layerTable factor icH L (layerBase scores basics ks s e icH),
    hold := st.hold.filter (fun r => !(keyHold pc s e r))
      ++ holdingsTable pc scores basics s e topn,
    nav := st.nav.filter (fun r => !(keyNav pc s e r))
      ++ navTable pc scores basics ks s e hnav topn }

/-! ### Run orchestration: `main`'s transaction and logging flow -/

/-- The write operations `main` can issue against the database. -/
inductive WOp where
  | schemaEnsure : WOp
  | delRows : String → String → WOp
  | insRows : String → String → WOp
  | insLog : Bool → WOp
deriving DecidableEq, Repr

/-- A database connection: durable committed operations, the in-progress
transaction's pending operations, and the trace of every executed operation. -/
structure Conn where
  committed : List WOp
  pending : List WOp
  trace : List WOp
deriving DecidableEq, Repr

/-- Execute an operation on the connection (uncommitted until `commit`). -/
def execOp (c : Conn) (op : WOp) : Conn :=
  ⟨c.committed, c.pending ++ [op], c.trace ++ [op]⟩

/-- `conn.commit()`. -/
def commitConn (c : Conn) : Conn := ⟨c.committed ++ c.pending, [], c.trace⟩

/-- `conn.rollback()`. -/
def rollbackConn (c : Conn) : Conn := ⟨c.committed, [], c.trace⟩

/-- The write operations of `calc_ic_and_layer` for one factor, in source order. -/
def icLayerOps (f : String) : List WOp :=
  [WOp.delRows "dws_factor_ic_daily" f, WOp.delRows "dws_factor_layer_ret_daily" f,
   WOp.insRows "dws_factor_ic_daily" f, WOp.insRows "dws_factor_layer_ret_daily" f]

/-- The write operations of `calc_portfolio_nav` for one factor, in source order. -/
def navOps (f : String) : List WOp :=
  [WOp.delRows "dws_portfolio_nav_daily" f, WOp.delRows "dws_portfolio_holdings_daily" f,
   WOp.insRows "dws_portfolio_holdings_daily" f, WOp.insRows "dws_portfolio_nav_daily" f]

/-- Execute a list of operations; `failAt op = true` models a database error raised
by that operation, which aborts the list. -/
def execList (failAt : WOp → Bool) (c : Conn) : List WOp → Conn × Bool
  | [] => (c, true)
  | op :: rest => if failAt op then (c, false) else execList failAt (execOp c op) rest

/-- The CLI arguments that drive the control flow (`stop` models `--end`). -/
structure RunArgs where
  factor : String
  start : Int
  stop : Int
deriving DecidableEq, Repr

/-- Whether an operation touches a result table. -/
def isResultOp (op : WOp) : Bool :=
  match op with
  | WOp.delRows _ _ => true
  | WOp.insRows _ _ => true
  | _ => false

/-- Whether an operation is the run-log insert. -/
def isLogOp (op : WOp) : Bool :=
  match op with
  | WOp.insLog _ => true
  | _ => false

/-- The `try:` block of `main` (lines 598-637): ensure schema, check the score feed
is non-empty, check `start > end`, resolve and validate the factor list, then run
both calculators per factor and commit.  Returns the connection and the `ok` flag.
`scoreEmpty` models an empty `dws_stock_score_daily`. -/
def tryPhase (a : RunArgs) (cols : List String) (scoreEmpty : Bool)
    (failAt : WOp → Bool) (c0 : Conn) : Conn × Bool :=
  let c1 := execOp c0 WOp.schemaEnsure
  if scoreEmpty then (c1, false)
  else if decide (a.stop < a.start) then (c1, false)
  else
    let fs := factorsOf a.factor cols
    if fs.all (fun f => validate_factor_name f cols) then
      let r := execList failAt c1 (fs.flatMap (fun f => icLayerOps f ++ navOps f))
      if r.2 then (commitConn r.1, true) else (r.1, false)
    else (c1, false)

/-- The `try/except` of `main`: on any failure the in-progress transaction is rolled
back. -/
def mainPhase (a : RunArgs) (cols : List String) (scoreEmpty : Bool)
    (failAt : WOp → Bool) (c0 : Conn) : Conn × Bool :=
  let r := tryPhase a cols scoreEmpty failAt c0
  if r.2 then r else (rollbackConn r.1, false)

/-- `log_run` (lines 555-567): insert one run-log row; any exception is swallowed
(`logFails = true` models a failing insert, which leaves the connection unchanged). -/
def log_run (logFails : Bool) (ok : Bool) (c : Conn) : Conn :=
  if logFails then c else execOp c (WOp.insLog ok)

/-- The whole of `main`: try/except, then the `finally:` block (log the run, commit,
close).  The returned flag models the exit status (`False` raises `SystemExit`). -/
def runMain (a : RunArgs) (cols : List String) (scoreEmpty : Bool)
    (failAt : WOp → Bool) (logFails : Bool) (c0 : Conn) : Conn × Bool :=
  let m := mainPhase a cols scoreEmpty failAt c0
  (commitConn (log_run logFails m.2 m.1), m.2)

/-- The market trading calendar: the distinct dates of the price feed. -/
def tradingDays (ks : List KlineRow) : List Int := (ks.map KlineRow.trade_date).dedup

/-! ## Theorems -/

/-! ### NAV loop lemmas (claim C1) -/

theorem navLoop_map_dates (pc : String) (retMap : Int → Option ℚ) (cntMap : Int → Option Int) :
    ∀ (ds : List Int) (prev : Int) (nav : ℚ),
      (navLoop pc retMap cntMap prev nav ds).map NavRow.trade_date = ds := by
  intro ds
  induction ds with
  | nil => intro prev nav; simp [navLoop]
  | cons d rest ih =>
    intro prev nav
    cases hr : retMap prev <;> simp [navLoop, hr, ih]

theorem navLoop_chain (pc : String) (retMap : Int → Option ℚ) (cntMap : Int → Option Int) :
    ∀ (ds : List Int) (a : NavRow),
      List.Chain' (navStep retMap) (a :: navLoop pc retMap cntMap a.trade_date a.nav ds) := by
  intro ds
  induction ds with
  | nil => intro a; simp [navLoop]
  | cons d rest ih =>
    intro a
    cases hr : retMap a.trade_date with
    | none =>
      rw [navLoop, hr]
      refine List.chain'_cons.mpr ⟨⟨by simp [hr], by simp [hr]⟩, ?_⟩
      exact ih ⟨pc, d, a.nav, none, none⟩
    | some r =>
      rw [navLoop, hr]
      refine List.chain'_cons.mpr ⟨⟨by simp [hr], by simp [hr]⟩, ?_⟩
      exact ih ⟨pc, d, a.nav * (1 + r), some r, cntMap a.trade_date⟩

/-- Claim C1 (confirmed): for every portfolio NAV series written over a requested
date range, the first calendar trading date in range gets `nav = 1.0` with NULL
`daily_ret`; and between each calendar date and its predecessor, the written row
records the predecessor day's portfolio return (NULL when absent) and compounds
`nav = prev_nav * (1 + ret)` when that return exists, carrying `nav` forward
unchanged (with NULL `daily_ret`) when it does not. -/
theorem C1_nav_series (pc : String) (retMap : Int → Option ℚ) (cntMap : Int → Option Int)
    (d0 : Int) (rest : List Int) :
    (calc_portfolio_nav_rows pc retMap cntMap (d0 :: rest)).map NavRow.trade_date = d0 :: rest ∧
    ∃ r0 tl, calc_portfolio_nav_rows pc retMap cntMap (d0 :: rest) = r0 :: tl ∧
      r0.nav = 1 ∧ r0.daily_ret = none ∧
      List.Chain' (navStep retMap) (r0 :: tl) := by
  constructor
  · simp [calc_portfolio_nav_rows, navLoop_map_dates]
  · refine ⟨⟨pc, d0, 1, none, none⟩, navLoop pc retMap cntMap d0 1 rest, rfl, rfl, rfl, ?_⟩
    exact navLoop_chain pc retMap cntMap rest ⟨pc, d0, 1, none, none⟩

/-! ### Partition-position lemmas (claim C3) -/

theorem posOf_mono (l : List Int) (d1 d2 : Int) (h12 : d1 ≤ d2) : posOf l d1 ≤ posOf l d2 := by
  unfold posOf
  rw [← List.countP_eq_length_filter, ← List.countP_eq_length_filter]
  apply List.countP_mono_left
  intro a _ ha
  simp only [decide_eq_true_eq] at ha ⊢
  omega

theorem posOf_lt_posOf (l : List Int) (d1 d2 : Int) (h12 : d1 < d2) (h1 : d1 ∈ l) :
    posOf l d1 < posOf l d2 := by
  induction l with
  | nil => simp at h1
  | cons a t ih =>
    have hmono : posOf t d1 ≤ posOf t d2 := posOf_mono t d1 d2 (le_of_lt h12)
    rcases List.mem_cons.mp h1 with ha | ht
    · subst ha
      have e1 : posOf (d1 :: t) d1 = posOf t d1 := by simp [posOf, List.filter_cons]
      have e2 : posOf (d1 :: t) d2 = posOf t d2 + 1 := by
        simp [posOf, List.filter_cons, h12]
      omega
    · have hiht := ih ht
      by_cases hlt : a < d1
      · have e1 : posOf (a :: t) d1 = posOf t d1 + 1 := by
          simp [posOf, List.filter_cons, hlt]
        have e2 : posOf (a :: t) d2 = posOf t d2 + 1 := by
          simp [posOf, List.filter_cons, lt_trans hlt h12]
        omega
      · have e1 : posOf (a :: t) d1 = posOf t d1 := by simp [posOf, List.filter_cons, hlt]
        by_cases hlt2 : a < d2
        · have e2 : posOf (a :: t) d2 = posOf t d2 + 1 := by
            simp [posOf, List.filter_cons, hlt2]
          omega
        · have e2 : posOf (a :: t) d2 = posOf t d2 := by
            simp [posOf, List.filter_cons, hlt2]
          omega

theorem posOf_injOn (l : List Int) (d1 d2 : Int) (h1 : d1 ∈ l) (h2 : d2 ∈ l)
    (heq : posOf l d1 = posOf l d2) : d1 = d2 := by
  rcases lt_trichotomy d1 d2 with h | h | h
  · exact absurd heq (Nat.ne_of_lt (posOf_lt_posOf l d1 d2 h h1))
  · exact h
  · exact absurd heq.symm (Nat.ne_of_lt (posOf_lt_posOf l d2 d1 h h2))

/-- Splitting a list that avoids `d` into the strictly smaller and strictly larger
parts. -/
theorem length_split_not_mem (t : List Int) (d : Int) (hdt : d ∉ t) :
    t.length = posOf t d + (t.filter (fun x => decide (d < x))).length := by
  induction t with
  | nil => simp [posOf]
  | cons b u ihu =>
    have hb : b ≠ d := by rintro rfl; exact hdt (List.mem_cons_self _ _)
    have hdu : d ∉ u := fun hm => hdt (List.mem_cons_of_mem _ hm)
    have hrec := ihu hdu
    rcases lt_or_gt_of_ne hb with hlt | hgt
    · have e1 : posOf (b :: u) d = posOf u d + 1 := by simp [posOf, List.filter_cons, hlt]
      have e2 : ((b :: u).filter (fun x => decide (d < x))).length
          = (u.filter (fun x => decide (d < x))).length := by
        have : ¬(d < b) := by omega
        simp [List.filter_cons, this]
      simp only [List.length_cons]
      omega
    · have e1 : posOf (b :: u) d = posOf u d := by
        have : ¬(b < d) := by omega
        simp [posOf, List.filter_cons, this]
      have e2 : ((b :: u).filter (fun x => decide (d < x))).length
          = (u.filter (fun x => decide (d < x))).length + 1 := by
        simp [List.filter_cons, hgt]
      simp only [List.length_cons]
      omega

/-- Splitting a duplicate-free partition around a member: strictly earlier dates,
the date itself, and strictly later dates. -/
theorem length_split_at_mem (l : List Int) (d : Int) (hnd : l.Nodup) (hd : d ∈ l) :
    l.length = posOf l d + 1 + (l.filter (fun x => decide (d < x))).length := by
  induction l with
  | nil => simp at hd
  | cons a t ih =>
    rcases List.nodup_cons.mp hnd with ⟨hna, hndt⟩
    rcases List.mem_cons.mp hd with ha | ht
    · subst ha
      have e1 : posOf (d :: t) d = posOf t d := by simp [posOf, List.filter_cons]
      have e2 : ((d :: t).filter (fun x => decide (d < x))).length
          = (t.filter (fun x => decide (d < x))).length := by
        simp [List.filter_cons]
      have := length_split_not_mem t d hna
      simp only [List.length_cons]
      omega
    · have had : a ≠ d := fun hm => hna (hm ▸ ht)
      have hih := ih hndt ht
      rcases lt_or_gt_of_ne had with hlt | hgt
      · have e1 : posOf (a :: t) d = posOf t d + 1 := by simp [posOf, List.filter_cons, hlt]
        have e2 : ((a :: t).filter (fun x => decide (d < x))).length
            = (t.filter (fun x => decide (d < x))).length := by
          have : ¬(d < a) := by omega
          simp [List.filter_cons, this]
        simp only [List.length_cons]
        omega
      · have e1 : posOf (a :: t) d = posOf t d := by
          have : ¬(a < d) := by omega
          simp [posOf, List.filter_cons, this]
        have e2 : ((a :: t).filter (fun x => decide (d < x))).length
            = (t.filter (fun x => decide (d < x))).length + 1 := by
          simp [List.filter_cons, hgt]
        simp only [List.length_cons]
        omega

theorem find?_eq_some_of_unique {α : Type _} (l : List α) (p : α → Bool) (a : α)
    (ha : a ∈ l) (hpa : p a = true) (huniq : ∀ x ∈ l, p x = true → x = a) :
    l.find? p = some a := by
  induction l with
  | nil => simp at ha
  | cons x t ih =>
    by_cases hpx : p x = true
    · rw [List.find?_cons_of_pos _ hpx]
      exact congrArg some (huniq x (List.mem_cons_self x t) hpx)
    · rw [List.find?_cons_of_neg _ hpx]
      rcases List.mem_cons.mp ha with hax | hat
      · exact absurd (hax ▸ hpa) hpx
      · exact ih hat (fun y hy hpy => huniq y (List.mem_cons_of_mem x hy) hpy)

theorem mem_partDates_of_mem (f : List KlineRow) (k : KlineRow) (hk : k ∈ f) :
    k.trade_date ∈ partDates f k.code := by
  unfold partDates
  exact List.mem_map_of_mem _ (List.mem_filter.mpr ⟨hk, by simp⟩)

/-- Claim C3 (confirmed): within the `ret` CTE's filtered bar stream `f`, the forward
return of a bar `k` at horizon `h` is `(close[t+h] - close[t]) / close[t]` where
`t+h` is the `h`-th later row of that code's own date-ordered partition (a
trading-day offset); and it is null — the function is total, never an exception —
whenever fewer than `h` future bars exist for the code, or `close[t]` is null, or
`close[t]` is zero. -/
theorem C3_forward_return (ks : List KlineRow) (s e : Int) (h : Nat) (k : KlineRow)
    (f : List KlineRow) (part : List Int)
    (hf : f = klineFiltered ks s e) (hpart : part = partDates f k.code)
    (hk : k ∈ f) (hnd : part.Nodup) :
    ((part.filter (fun x => decide (k.trade_date < x))).length < h →
      ret_fwd_of f h k = none) ∧
    (k.close = none → ret_fwd_of f h k = none) ∧
    (k.close = some 0 → ret_fwd_of f h k = none) ∧
    (∀ (k' : KlineRow) (c c2 : ℚ),
      k' ∈ f → k'.code = k.code →
      posOf part k'.trade_date = posOf part k.trade_date + h →
      k.close = some c → c ≠ 0 → k'.close = some c2 →
      ret_fwd_of f h k = some ((c2 - c) / c)) := by
  have hkmem : k.trade_date ∈ part := hpart ▸ mem_partDates_of_mem f k hk
  refine ⟨?_, ?_, ?_, ?_⟩
  · intro hfew
    have hlead : leadClose f k.code k.trade_date h = none := by
      unfold leadClose
      rw [List.find?_eq_none.mpr ?_]
      intro x hx
      simp only [beq_iff_eq, Bool.not_eq_true, beq_eq_false_iff_ne, ne_eq]
      intro hpos
      rw [← hpart] at hpos
      have hxmem : x.trade_date ∈ part := by
        rw [hpart]
        unfold partDates
        exact List.mem_map_of_mem _ hx
      have hsplit := length_split_at_mem part k.trade_date hnd hkmem
      have hxsplit := length_split_at_mem part x.trade_date hnd hxmem
      omega
    simp only [ret_fwd_of, hlead]
    cases k.close <;> simp
  · intro hnone
    simp [ret_fwd_of, hnone]
  · intro hzero
    simp only [ret_fwd_of, hzero]
    cases leadClose f k.code k.trade_date h <;> simp
  · intro k' c c2 hk' hcode hpos hclose hc0 hclose'
    have hlead : leadClose f k.code k.trade_date h = some c2 := by
      unfold leadClose
      have hk'mem : k' ∈ f.filter (fun x => x.code == k.code) :=
        List.mem_filter.mpr ⟨hk', by simp [hcode]⟩
      rw [find?_eq_some_of_unique _ _ k' hk'mem (by simp [← hpart, hpos]) ?_]
      · exact hclose'
      · intro x hx hpx
        rcases List.mem_filter.mp hx with ⟨hxf, hxc⟩
        have hxcode : x.code = k.code := by simpa using hxc
        have hxmem : x.trade_date ∈ part := by
          rw [hpart, ← hxcode]
          exact mem_partDates_of_mem f x hxf
        have hk'memp : k'.trade_date ∈ part := by
          rw [hpart, ← hcode]
          exact mem_partDates_of_mem f k' hk'
        have hxpos : posOf part x.trade_date = posOf part k.trade_date + h := by
          simpa [← hpart] using hpx
        have hdate : x.trade_date = k'.trade_date :=
          posOf_injOn part x.trade_date k'.trade_date hxmem hk'memp (by rw [hxpos, hpos])
        have hmapnd : (List.map KlineRow.trade_date
            (f.filter (fun y => y.code == k.code))).Nodup := by
          have := hpart ▸ hnd
          simpa [partDates] using this
        exact List.inj_on_of_nodup_map hmapnd hx hk'mem hdate
    simp only [ret_fwd_of, hclose, hlead]
    rw [if_neg hc0]

/-- Witness for C3 at a concrete two-bar feed. -/
theorem C3_forward_return_witness :
    (⟨"A", 0, some 10, some 1, some 0⟩ : KlineRow) ∈
        klineFiltered [⟨"A", 0, some 10, some 1, some 0⟩, ⟨"A", 1, some 12, some 1, some 0⟩] 0 1 ∧
    ret_fwd_of (klineFiltered
        [⟨"A", 0, some 10, some 1, some 0⟩, ⟨"A", 1, some 12, some 1, some 0⟩] 0 1) 1
      ⟨"A", 0, some 10, some 1, some 0⟩ = some ((12 - 10) / 10) := by
  constructor
  · simp [klineFiltered, isnull]
  · exact (C3_forward_return
      [⟨"A", 0, some 10, some 1, some 0⟩, ⟨"A", 1, some 12, some 1, some 0⟩] 0 1 1
      ⟨"A", 0, some 10, some 1, some 0⟩ _ _ rfl rfl
      (by simp [klineFiltered, isnull])
      (by simp [klineFiltered, partDates, isnull])).2.2.2
      ⟨"A", 1, some 12, some 1, some 0⟩ 10 12
      (by simp [klineFiltered, isnull])
      rfl
      (by simp [klineFiltered, partDates, posOf, isnull])
      rfl (by norm_num) rfl

/-! ### Moment and Cauchy-Schwarz lemmas (claims C2, C6) -/

theorem foldl_aggStep (ps : List (ℚ × ℚ)) :
    ∀ m : Moments, ps.foldl aggStep m =
      ⟨m.n + nOf ps, m.sumx + sxOf ps, m.sumy + syOf ps,
       m.sumx2 + sx2Of ps, m.sumy2 + sy2Of ps, m.sumxy + sxyOf ps⟩ := by
  induction ps with
  | nil =>
    intro m
    obtain ⟨mn, mx, my, mx2, my2, mxy⟩ := m
    simp [nOf, sxOf, syOf, sx2Of, sy2Of, sxyOf]
  | cons p t ih =>
    intro m
    rw [List.foldl_cons, ih]
    simp only [aggStep, nOf, sxOf, syOf, sx2Of, sy2Of, sxyOf, List.map_cons,
      List.sum_cons, List.length_cons, Moments.mk.injEq]
    refine ⟨?_, ?_, ?_, ?_, ?_, ?_⟩ <;> (push_cast; ring)

theorem agg_raw_eq (ps : List (ℚ × ℚ)) :
    agg_raw ps = ⟨nOf ps, sxOf ps, syOf ps, sx2Of ps, sy2Of ps, sxyOf ps⟩ := by
  unfold agg_raw
  rw [foldl_aggStep]
  simp

theorem sum_sq_nonneg (l : List ℚ) : 0 ≤ (l.map (fun x => x * x)).sum := by
  induction l with
  | nil => simp
  | cons a t ih =>
    simp only [List.map_cons, List.sum_cons]
    exact add_nonneg (mul_self_nonneg a) ih

theorem sx2Of_nonneg (l : List (ℚ × ℚ)) : 0 ≤ sx2Of l := by
  have := sum_sq_nonneg (l.map Prod.fst)
  rw [List.map_map] at this
  simpa [sx2Of, Function.comp] using this

theorem sy2Of_nonneg (l : List (ℚ × ℚ)) : 0 ≤ sy2Of l := by
  have := sum_sq_nonneg (l.map Prod.snd)
  rw [List.map_map] at this
  simpa [sy2Of, Function.comp] using this

/-- The pointwise sum-of-squares inequality behind Cauchy-Schwarz. -/
theorem sum_comb_nonneg (l : List (ℚ × ℚ)) (a b : ℚ) :
    0 ≤ a * a * sy2Of l - 2 * a * b * sxyOf l + b * b * sx2Of l := by
  have hexp : ((l.map (fun p => (a * p.2 - b * p.1) * (a * p.2 - b * p.1))).sum)
      = a * a * sy2Of l - 2 * a * b * sxyOf l + b * b * sx2Of l := by
    induction l with
    | nil => simp [sx2Of, sy2Of, sxyOf]
    | cons p t ih =>
      simp only [List.map_cons, List.sum_cons, sx2Of, sy2Of, sxyOf] at ih ⊢
      rw [ih]
      ring
  have hnn := sum_sq_nonneg (l.map (fun p => a * p.2 - b * p.1))
  rw [List.map_map] at hnn
  calc (0 : ℚ) ≤ _ := hnn
  _ = a * a * sy2Of l - 2 * a * b * sxyOf l + b * b * sx2Of l := by
    rw [← hexp]; rfl

/-- Cauchy-Schwarz for lists of pairs. -/
theorem cs_list (l : List (ℚ × ℚ)) : sxyOf l * sxyOf l ≤ sx2Of l * sy2Of l := by
  induction l with
  | nil => simp [sx2Of, sy2Of, sxyOf]
  | cons p t ih =>
    have hkey := sum_comb_nonneg t p.1 p.2
    simp only [sx2Of, sy2Of, sxyOf, List.map_cons, List.sum_cons] at ih hkey ⊢
    nlinarith [ih, hkey]

theorem sxyOf_map_affine (ps : List (ℚ × ℚ)) (A B C D : ℚ) :
    sxyOf (ps.map (fun p => (A * p.1 - B, C * p.2 - D)))
      = A * C * sxyOf ps - A * D * sxOf ps - B * C * syOf ps + B * D * nOf ps := by
  induction ps with
  | nil => simp [sxyOf, sxOf, syOf, nOf]
  | cons p t ih =>
    simp only [sxyOf, sxOf, syOf, nOf, List.map_cons, List.sum_cons,
      List.length_cons] at ih ⊢
    rw [ih]
    push_cast
    ring

theorem sx2Of_map_affine (ps : List (ℚ × ℚ)) (A B C D : ℚ) :
    sx2Of (ps.map (fun p => (A * p.1 - B, C * p.2 - D)))
      = A * A * sx2Of ps - 2 * A * B * sxOf ps + B * B * nOf ps := by
  induction ps with
  | nil => simp [sx2Of, sxOf, nOf]
  | cons p t ih =>
    simp only [sx2Of, sxOf, nOf, List.map_cons, List.sum_cons, List.length_cons] at ih ⊢
    rw [ih]
    push_cast
    ring

theorem sy2Of_map_affine (ps : List (ℚ × ℚ)) (A B C D : ℚ) :
    sy2Of (ps.map (fun p => (A * p.1 - B, C * p.2 - D)))
      = C * C * sy2Of ps - 2 * C * D * syOf ps + D * D * nOf ps := by
  induction ps with
  | nil => simp [sy2Of, syOf, nOf]
  | cons p t ih =>
    simp only [sy2Of, syOf, nOf, List.map_cons, List.sum_cons, List.length_cons] at ih ⊢
    rw [ih]
    push_cast
    ring

/-- The moment form of Cauchy-Schwarz: the Pearson numerator squared never exceeds
the product of the two denominator factors. -/
theorem moments_cs (ps : List (ℚ × ℚ)) :
    (nOf ps * sxyOf ps - sxOf ps * syOf ps) ^ 2
      ≤ (nOf ps * sx2Of ps - sxOf ps * sxOf ps) * (nOf ps * sy2Of ps - syOf ps * syOf ps) := by
  rcases ps with _ | ⟨p, t⟩
  · simp [nOf, sxOf, syOf, sx2Of, sy2Of, sxyOf]
  · set l := p :: t with hl
    have hn : 0 < nOf l := by
      simp only [nOf, hl, List.length_cons]
      push_cast
      positivity
    have hcs := cs_list (l.map (fun q => (nOf l * q.1 - sxOf l, nOf l * q.2 - syOf l)))
    rw [sxyOf_map_affine, sx2Of_map_affine, sy2Of_map_affine] at hcs
    have h2 : (nOf l * nOf l) *
          ((nOf l * sxyOf l - sxOf l * syOf l) * (nOf l * sxyOf l - sxOf l * syOf l))
        ≤ (nOf l * nOf l) *
          ((nOf l * sx2Of l - sxOf l * sxOf l) * (nOf l * sy2Of l - syOf l * syOf l)) := by
      calc (nOf l * nOf l) *
            ((nOf l * sxyOf l - sxOf l * syOf l) * (nOf l * sxyOf l - sxOf l * syOf l))
          = (nOf l * nOf l * sxyOf l - nOf l * syOf l * sxOf l
              - sxOf l * nOf l * syOf l + sxOf l * syOf l * nOf l) *
            (nOf l * nOf l * sxyOf l - nOf l * syOf l * sxOf l
              - sxOf l * nOf l * syOf l + sxOf l * syOf l * nOf l) := by ring
      _ ≤ (nOf l * nOf l * sx2Of l - 2 * nOf l * sxOf l * sxOf l + sxOf l * sxOf l * nOf l) *
            (nOf l * nOf l * sy2Of l - 2 * nOf l * syOf l * syOf l + syOf l * syOf l * nOf l) :=
          hcs
      _ = (nOf l * nOf l) *
            ((nOf l * sx2Of l - sxOf l * sxOf l) * (nOf l * sy2Of l - syOf l * syOf l)) := by
          ring
    have h3 := le_of_mul_le_mul_left h2 (mul_pos hn hn)
    calc (nOf l * sxyOf l - sxOf l * syOf l) ^ 2
        = (nOf l * sxyOf l - sxOf l * syOf l) * (nOf l * sxyOf l - sxOf l * syOf l) := sq
          (nOf l * sxyOf l - sxOf l * syOf l)
    _ ≤ _ := h3

theorem icCase_none_iff (m : Moments) :
    icCase m = none ↔
      (m.n * m.sumx2 - m.sumx * m.sumx = 0 ∨ m.n * m.sumy2 - m.sumy * m.sumy = 0) := by
  unfold icCase
  split <;> simp_all

/-- Any value the CASE expression emits for a day's aggregates lies in `[-1, 1]`. -/
theorem icCase_abs_le (ps : List (ℚ × ℚ)) (v : ℝ)
    (h : icCase (agg_raw ps) = some v) : |v| ≤ 1 := by
  rw [agg_raw_eq] at h
  unfold icCase at h
  split at h
  · exact absurd h (by simp)
  · rename_i hcond
    push_neg at hcond
    obtain ⟨hdx, hdy⟩ := hcond
    simp only [] at hdx hdy h
    have hne : ps ≠ [] := by
      rintro rfl
      apply hdx
      simp [nOf, sxOf, sx2Of]
    have hn : 0 < nOf ps := by
      rcases ps with _ | ⟨q, t⟩
      · exact absurd rfl hne
      · simp only [nOf, List.length_cons]
        push_cast
        positivity
    set num := nOf ps * sxyOf ps - sxOf ps * syOf ps with hnum
    set dx := nOf ps * sx2Of ps - sxOf ps * sxOf ps with hdxe
    set dy := nOf ps * sy2Of ps - syOf ps * syOf ps with hdye
    have hndx : 0 ≤ nOf ps * dx := by
      have hh := sx2Of_nonneg (ps.map (fun q => (nOf ps * q.1 - sxOf ps, nOf ps * q.2 - syOf ps)))
      rw [sx2Of_map_affine] at hh
      calc (0 : ℚ) ≤ _ := hh
      _ = nOf ps * dx := by rw [hdxe]; ring
    have hndy : 0 ≤ nOf ps * dy := by
      have hh := sy2Of_nonneg (ps.map (fun q => (nOf ps * q.1 - sxOf ps, nOf ps * q.2 - syOf ps)))
      rw [sy2Of_map_affine] at hh
      calc (0 : ℚ) ≤ _ := hh
      _ = nOf ps * dy := by rw [hdye]; ring
    have hdxpos : 0 < dx :=
      lt_of_le_of_ne ((mul_nonneg_iff_of_pos_left hn).mp hndx) (Ne.symm hdx)
    have hdypos : 0 < dy :=
      lt_of_le_of_ne ((mul_nonneg_iff_of_pos_left hn).mp hndy) (Ne.symm hdy)
    have hcs : num ^ 2 ≤ dx * dy := moments_cs ps
    obtain rfl : ((num : ℚ) : ℝ) / Real.sqrt ((dx * dy : ℚ) : ℝ) = v := by
      simpa using h
    have hDpos : (0 : ℝ) < ((dx * dy : ℚ) : ℝ) := by
      push_cast
      positivity
    have hsq : ((num : ℚ) : ℝ) ^ 2 ≤ ((dx * dy : ℚ) : ℝ) := by
      calc ((num : ℚ) : ℝ) ^ 2 = (((num ^ 2 : ℚ)) : ℝ) := by push_cast; ring
      _ ≤ (((dx * dy : ℚ)) : ℝ) := by exact_mod_cast hcs
    have hs : 0 < Real.sqrt ((dx * dy : ℚ) : ℝ) := Real.sqrt_pos.mpr hDpos
    rw [abs_div, abs_of_nonneg (Real.sqrt_nonneg _), div_le_one hs]
    calc |((num : ℚ) : ℝ)| = Real.sqrt (((num : ℚ) : ℝ) ^ 2) :=
          (Real.sqrt_sq_eq_abs _).symm
    _ ≤ Real.sqrt ((dx * dy : ℚ) : ℝ) := Real.sqrt_le_sqrt hsq

/-! ### Dense-rank lemmas and the Pearson refinement (claim C2) -/

theorem dense_rank_eq_card (vals : List ℚ) (v : ℚ) :
    dense_rank vals v = 1 + (vals.toFinset.filter (fun x => x < v)).card := by
  have key : (vals.dedup.filter (fun x => decide (x < v))).length
      = (vals.toFinset.filter (fun x => x < v)).card := by
    have h1 : (vals.dedup.filter (fun x => decide (x < v))).dedup
        = vals.dedup.filter (fun x => decide (x < v)) :=
      List.dedup_eq_self.mpr (List.Nodup.filter _ vals.nodup_dedup)
    rw [← h1, ← List.card_toFinset, List.toFinset_filter]
    have h2 : vals.dedup.toFinset = vals.toFinset :=
      List.toFinset.ext_iff.mpr (fun x => List.mem_dedup)
    rw [h2]
    congr 1
    apply Finset.filter_congr
    intro x _
    simp
  unfold dense_rank
  omega

theorem dense_rank_spec_eq_card (vals : List ℚ) (v : ℚ) :
    dense_rank_spec vals v = 1 + (vals.toFinset.filter (fun x => x < v)).card := by
  have key : ((vals.filter (fun x => decide (x < v))).dedup).length
      = (vals.toFinset.filter (fun x => x < v)).card := by
    rw [← List.card_toFinset, List.toFinset_filter]
    congr 1
    apply Finset.filter_congr
    intro x _
    simp
  unfold dense_rank_spec
  omega

theorem dense_rank_eq_spec (vals : List ℚ) (v : ℚ) :
    dense_rank vals v = dense_rank_spec vals v := by
  rw [dense_rank_eq_card, dense_rank_spec_eq_card]

theorem rankedPairs_eq_spec (ps : List (ℚ × ℚ)) :
    rankedPairs ps = denseRankedPairsSpec ps := by
  unfold rankedPairs denseRankedPairsSpec
  apply List.map_congr_left
  intro p _
  rw [dense_rank_eq_spec, dense_rank_eq_spec]

/-- The CASE expression over the one-pass aggregates equals the spec's closed-form
Pearson formula. -/
theorem icCase_agg_eq_pearson (ps : List (ℚ × ℚ)) :
    icCase (agg_raw ps) = pearson_spec ps := by
  rw [agg_raw_eq]
  unfold icCase pearson_spec
  simp only [pow_two]

/-- Dense ranks step by exactly one between consecutive distinct values. -/
theorem dense_rank_succ (vals : List ℚ) (v w : ℚ) (hv : v ∈ vals) (hw : w ∈ vals)
    (hwv : w < v) (hbet : ∀ x ∈ vals, ¬(w < x ∧ x < v)) :
    dense_rank vals v = dense_rank vals w + 1 := by
  rw [dense_rank_eq_card, dense_rank_eq_card]
  have hins : vals.toFinset.filter (fun x => x < v)
      = insert w (vals.toFinset.filter (fun x => x < w)) := by
    ext x
    simp only [Finset.mem_filter, Finset.mem_insert, List.mem_toFinset]
    constructor
    · rintro ⟨hx, hxv⟩
      by_cases hxw : x = w
      · exact Or.inl hxw
      · refine Or.inr ⟨hx, ?_⟩
        have hnwx : ¬w < x := fun hc => hbet x hx ⟨hc, hxv⟩
        exact lt_of_le_of_ne (not_lt.mp hnwx) hxw
    · rintro (rfl | ⟨hx, hxw⟩)
      · exact ⟨hw, hwv⟩
      · exact ⟨hx, lt_trans hxw hwv⟩
  rw [hins, Finset.card_insert_of_not_mem (by simp)]
  omega

/-- Counterexample to claim C2 as stated: with tied factor values `[1, 1, 2, 3]` the
stored rank-IC (dense ranks, no gaps) differs from the claimed skip-ahead ranking
(`RANK()`-style) fed through the same Pearson formula. -/
theorem C2_counterexample :
    storedRankIC [(1, 1), (1, 2), (2, 3), (3, 4)]
      ≠ pearson_spec (skipRankedPairs [(1, 1), (1, 2), (2, 3), (3, 4)]) := by
  have hr : rankedPairs ([(1, 1), (1, 2), (2, 3), (3, 4)] : List (ℚ × ℚ))
      = [(1, 1), (1, 2), (2, 3), (3, 4)] := by
    norm_num [rankedPairs, dense_rank, List.dedup_cons_of_mem, List.dedup_cons_of_not_mem]
  have hs : skipRankedPairs ([(1, 1), (1, 2), (2, 3), (3, 4)] : List (ℚ × ℚ))
      = [(1, 1), (1, 2), (3, 3), (4, 4)] := by
    norm_num [skipRankedPairs, skip_rank, List.filter]
  have h1 : storedRankIC [(1, 1), (1, 2), (2, 3), (3, 4)]
      = some ((14 : ℝ) / Real.sqrt 220) := by
    unfold storedRankIC
    rw [hr, agg_raw_eq]
    unfold icCase
    rw [if_neg (by norm_num [nOf, sxOf, syOf, sx2Of, sy2Of, sxyOf])]
    norm_num [nOf, sxOf, syOf, sx2Of, sy2Of, sxyOf]
  have h2 : pearson_spec (skipRankedPairs [(1, 1), (1, 2), (2, 3), (3, 4)])
      = some ((22 : ℝ) / Real.sqrt 540) := by
    rw [hs]
    unfold pearson_spec
    rw [if_neg (by norm_num [nOf, sxOf, syOf, sx2Of, sy2Of, sxyOf])]
    norm_num [nOf, sxOf, syOf, sx2Of, sy2Of, sxyOf]
  rw [h1, h2]
  intro hcontra
  have hval : (14 : ℝ) / Real.sqrt 220 = 22 / Real.sqrt 540 := by
    exact Option.some_injective ℝ hcontra
  have hsq : ((14 : ℝ) / Real.sqrt 220) ^ 2 = ((22 : ℝ) / Real.sqrt 540) ^ 2 := by
    rw [hval]
  rw [div_pow, div_pow, Real.sq_sqrt (by norm_num : (0 : ℝ) ≤ 220),
    Real.sq_sqrt (by norm_num : (0 : ℝ) ≤ 540)] at hsq
  norm_num at hsq

/-- Claim C2 (amended): the stored `ic` equals the Pearson moment formula and is null
exactly when either denominator factor is zero; the stored `rank_ic` equals the same
formula applied to dense ranks of x and y within the day's cross-section, where
rank 1 = smallest value, tied values share a rank, and the next distinct value's
rank is exactly one greater (dense ranks, no skip-ahead). -/
theorem C2_ic_formula (ps : List (ℚ × ℚ)) :
    storedIC ps = pearson_spec ps ∧
    (storedIC ps = none ↔
      (nOf ps * sx2Of ps - sxOf ps * sxOf ps = 0 ∨
       nOf ps * sy2Of ps - syOf ps * syOf ps = 0)) ∧
    storedRankIC ps = pearson_spec (denseRankedPairsSpec ps) ∧
    (∀ v w : ℚ, v ∈ ps.map Prod.fst → w ∈ ps.map Prod.fst → w < v →
      (∀ x ∈ ps.map Prod.fst, ¬(w < x ∧ x < v)) →
      dense_rank (ps.map Prod.fst) v = dense_rank (ps.map Prod.fst) w + 1) := by
  refine ⟨icCase_agg_eq_pearson ps, ?_, ?_, ?_⟩
  · unfold storedIC
    rw [icCase_none_iff, agg_raw_eq]
  · unfold storedRankIC
    rw [rankedPairs_eq_spec]
    exact icCase_agg_eq_pearson (denseRankedPairsSpec ps)
  · intro v w hv hw hwv hbet
    exact dense_rank_succ (ps.map Prod.fst) v w hv hw hwv hbet

/-- Witness for C2 at a concrete tied cross-section. -/
theorem C2_ic_formula_witness :
    ((2 : ℚ) ∈ ([(1, 5), (1, 6), (2, 7), (3, 8)] : List (ℚ × ℚ)).map Prod.fst ∧
     (1 : ℚ) ∈ ([(1, 5), (1, 6), (2, 7), (3, 8)] : List (ℚ × ℚ)).map Prod.fst ∧
     (1 : ℚ) < 2 ∧
     (∀ x ∈ ([(1, 5), (1, 6), (2, 7), (3, 8)] : List (ℚ × ℚ)).map Prod.fst,
        ¬((1 : ℚ) < x ∧ x < 2))) ∧
    storedIC [(1, 5), (1, 6), (2, 7), (3, 8)] = pearson_spec [(1, 5), (1, 6), (2, 7), (3, 8)] ∧
    dense_rank (([(1, 5), (1, 6), (2, 7), (3, 8)] : List (ℚ × ℚ)).map Prod.fst) 2
      = dense_rank (([(1, 5), (1, 6), (2, 7), (3, 8)] : List (ℚ × ℚ)).map Prod.fst) 1 + 1 := by
  have hhyp : ((2 : ℚ) ∈ ([(1, 5), (1, 6), (2, 7), (3, 8)] : List (ℚ × ℚ)).map Prod.fst ∧
      (1 : ℚ) ∈ ([(1, 5), (1, 6), (2, 7), (3, 8)] : List (ℚ × ℚ)).map Prod.fst ∧
      (1 : ℚ) < 2 ∧
      (∀ x ∈ ([(1, 5), (1, 6), (2, 7), (3, 8)] : List (ℚ × ℚ)).map Prod.fst,
        ¬((1 : ℚ) < x ∧ x < 2))) := by
    refine ⟨by norm_num, by norm_num, by norm_num, ?_⟩
    intro x hx
    norm_num at hx
    rcases hx with h | h | h <;> subst h <;> norm_num
  refine ⟨hhyp, (C2_ic_formula [(1, 5), (1, 6), (2, 7), (3, 8)]).1, ?_⟩
  exact (C2_ic_formula [(1, 5), (1, 6), (2, 7), (3, 8)]).2.2.2 2 1
    hhyp.1 hhyp.2.1 hhyp.2.2.1 hhyp.2.2.2

/-! ### IC table row existence and bounds (claim C6) -/

theorem mem_dedup_dates_iff (base : List BaseRow) (d : Int) :
    d ∈ (base.map BaseRow.trade_date).dedup ↔ 1 ≤ (dayPairs base d).length := by
  rw [List.mem_dedup, List.mem_map]
  constructor
  · rintro ⟨r, hr, rfl⟩
    have hmem : r ∈ base.filter (fun x => x.trade_date == r.trade_date) :=
      List.mem_filter.mpr ⟨hr, by simp⟩
    have hpos : 0 < (base.filter (fun x => x.trade_date == r.trade_date)).length :=
      List.length_pos.mpr (List.ne_nil_of_mem hmem)
    simpa [dayPairs] using hpos
  · intro hlen
    have hne : base.filter (fun x => x.trade_date == d) ≠ [] := by
      intro hnil
      rw [dayPairs, hnil] at hlen
      simp at hlen
    obtain ⟨r, hr⟩ := List.exists_mem_of_ne_nil _ hne
    rcases List.mem_filter.mp hr with ⟨hrb, hrd⟩
    exact ⟨r, hrb, by simpa using hrd⟩

/-- Counterexample to claim C6 as stated: with `min_n = 0`, calendar trading day `0`
lies in the requested range and its eligible cross-sectional sample count `n = 0`
satisfies `n ≥ min_n`, yet no ICRecord row exists (the insert only emits rows for
days present in the grouped base, i.e. with `n ≥ 1`). -/
theorem C6_counterexample :
    (0 : Int) ∈ tradingDays
      [⟨"A", 0, some 10, some 1, some 0⟩, ⟨"A", 1, some 11, some 1, some 0⟩] ∧
    (dayPairs (icBase [] [] [⟨"A", 0, some 10, some 1, some 0⟩,
        ⟨"A", 1, some 11, some 1, some 0⟩] 0 1 1) 0).length = 0 ∧
    (0 : Int) ≤ ((dayPairs (icBase [] [] [⟨"A", 0, some 10, some 1, some 0⟩,
        ⟨"A", 1, some 11, some 1, some 0⟩] 0 1 1) 0).length : Int) ∧
    icTable "f" 1 0 (icBase [] [] [⟨"A", 0, some 10, some 1, some 0⟩,
        ⟨"A", 1, some 11, some 1, some 0⟩] 0 1 1) = [] := by
  refine ⟨?_, ?_, ?_, ?_⟩
  · simp [tradingDays]
  · rfl
  · rfl
  · rfl

/-- Claim C6 (amended): an ICRecord row exists for a day iff the day's cross-section
is non-empty and its sample count `n` is at least `min_n` (for any `min_n ≥ 1` this
is exactly `n ≥ min_n`; a day with an empty cross-section never yields a row, even
when `min_n ≤ 0`); and every emitted row has `n ≥ min_n`, `n` equal to the day's
cross-sectional count, and `ic`, `rank_ic` each null or within `[-1, 1]`. -/
theorem C6_ic_row_invariants (factor : String) (h : Nat) (minN : Int)
    (scores : List ScoreRow) (basics : List BasicRow) (ks : List KlineRow)
    (s e : Int) (base : List BaseRow) (hbase : base = icBase scores basics ks s e h) :
    (∀ d : Int, (∃ row ∈ icTable factor h minN base, row.trade_date = d)
        ↔ (1 ≤ (dayPairs base d).length ∧ minN ≤ ((dayPairs base d).length : Int))) ∧
    (∀ row ∈ icTable factor h minN base,
      minN ≤ (row.n : Int) ∧ row.n = (dayPairs base row.trade_date).length ∧
      (row.ic = none ∨ ∃ v, row.ic = some v ∧ -1 ≤ v ∧ v ≤ 1) ∧
      (row.rank_ic = none ∨ ∃ v, row.rank_ic = some v ∧ -1 ≤ v ∧ v ≤ 1)) := by
  refine ⟨?_, ?_⟩
  · intro d
    constructor
    · rintro ⟨row, hrow, rfl⟩
      rcases List.mem_filterMap.mp hrow with ⟨d', hd', hsome⟩
      split at hsome
      · rename_i hcond
        injection hsome with hrow'
        subst hrow'
        refine ⟨(mem_dedup_dates_iff base d').mp hd', by simpa using hcond⟩
      · exact absurd hsome (by simp)
    · rintro ⟨h1, hmin⟩
      refine ⟨⟨factor, h, d, storedIC (dayPairs base d), storedRankIC (dayPairs base d),
        (dayPairs base d).length, meanOf ((dayPairs base d).map Prod.snd),
        stdevOf ((dayPairs base d).map Prod.snd)⟩, ?_, rfl⟩
      apply List.mem_filterMap.mpr
      refine ⟨d, (mem_dedup_dates_iff base d).mpr h1, ?_⟩
      rw [if_pos (by simpa using hmin)]
  · intro row hrow
    rcases List.mem_filterMap.mp hrow with ⟨d', hd', hsome⟩
    split at hsome
    · rename_i hcond
      injection hsome with hrow'
      subst hrow'
      refine ⟨by simpa using hcond, rfl, ?_, ?_⟩
      · unfold storedIC
        cases hic : icCase (agg_raw (dayPairs base d')) with
        | none => exact Or.inl rfl
        | some v =>
          refine Or.inr ⟨v, rfl, ?_⟩
          have := icCase_abs_le (dayPairs base d') v hic
          exact abs_le.mp this
      · unfold storedRankIC
        cases hic : icCase (agg_raw (rankedPairs (dayPairs base d'))) with
        | none => exact Or.inl rfl
        | some v =>
          refine Or.inr ⟨v, rfl, ?_⟩
          have := icCase_abs_le (rankedPairs (dayPairs base d')) v hic
          exact abs_le.mp this
    · exact absurd hsome (by simp)

/-- Witness for C6: the invariants instantiated at a concrete one-stock feed. -/
theorem C6_ic_row_invariants_witness :
    (icBase [⟨"A", 0, some 5⟩] [⟨"A", some 1, some 1⟩]
        [⟨"A", 0, some 1, some 1, some 0⟩, ⟨"A", 1, some 2, some 1, some 0⟩] 0 0 1
      = icBase [⟨"A", 0, some 5⟩] [⟨"A", some 1, some 1⟩]
        [⟨"A", 0, some 1, some 1, some 0⟩, ⟨"A", 1, some 2, some 1, some 0⟩] 0 0 1) ∧
    (∀ row ∈ icTable "total_score" 1 1
        (icBase [⟨"A", 0, some 5⟩] [⟨"A", some 1, some 1⟩]
          [⟨"A", 0, some 1, some 1, some 0⟩, ⟨"A", 1, some 2, some 1, some 0⟩] 0 0 1),
      (1 : Int) ≤ (row.n : Int) ∧
      row.n = (dayPairs (icBase [⟨"A", 0, some 5⟩] [⟨"A", some 1, some 1⟩]
          [⟨"A", 0, some 1, some 1, some 0⟩, ⟨"A", 1, some 2, some 1, some 0⟩] 0 0 1)
        row.trade_date).length ∧
      (row.ic = none ∨ ∃ v, row.ic = some v ∧ -1 ≤ v ∧ v ≤ 1) ∧
      (row.rank_ic = none ∨ ∃ v, row.rank_ic = some v ∧ -1 ≤ v ∧ v ≤ 1)) :=
  ⟨rfl, (C6_ic_row_invariants "total_score" 1 1 [⟨"A", 0, some 5⟩] [⟨"A", some 1, some 1⟩]
    [⟨"A", 0, some 1, some 1, some 0⟩, ⟨"A", 1, some 2, some 1, some 0⟩] 0 0 _ rfl).2⟩

/-! ### NTILE layering lemmas (claim C7) -/

/-- The first NTILE chunk never exceeds the row count. -/
theorem ntile_first_le (L n : Nat) :
    n / (L + 1) + (if n % (L + 1) = 0 then 0 else 1) ≤ n := by
  by_cases hr : n % (L + 1) = 0
  · simpa [hr] using Nat.div_le_self n (L + 1)
  · have hn0 : n ≠ 0 := by
      intro hn
      subst hn
      simp at hr
    rcases L with _ | L'
    · simp [Nat.mod_one] at hr
    · have hlt : n / (L' + 1 + 1) < n :=
        Nat.div_lt_self (Nat.pos_of_ne_zero hn0) (by omega)
      simp only [hr, if_false]
      omega

/-- NTILE chunk lengths sum to the row count. -/
theorem ntileChunks_sum_length {α : Type _} (L : Nat) (hL : 1 ≤ L) :
    ∀ xs : List α, (((ntileChunks L xs).map List.length)).sum = xs.length := by
  induction L with
  | zero => omega
  | succ L ih =>
    intro xs
    have hk := ntile_first_le L xs.length
    rw [ntileChunks]
    simp only [List.map_cons, List.sum_cons, List.length_take]
    rcases Nat.eq_zero_or_pos L with hL0 | hL1
    · subst hL0
      simp only [ntileChunks, List.map_nil, List.sum_nil, Nat.zero_add]
      simp [Nat.mod_one, Nat.div_one]
    · rw [ih hL1]
      simp only [List.length_drop]
      omega

/-- Every NTILE chunk has the floor or ceiling size. -/
theorem ntileChunks_length_mem {α : Type _} (L : Nat) :
    ∀ (xs : List α) (c : List α), 1 ≤ L → c ∈ ntileChunks L xs →
      c.length = xs.length / L ∨ c.length = xs.length / L + 1 := by
  induction L with
  | zero => omega
  | succ L ih =>
    intro xs c _ hc
    have hk := ntile_first_le L xs.length
    have hmod := Nat.div_add_mod xs.length (L + 1)
    have hmul : (L + 1) * (xs.length / (L + 1))
        = L * (xs.length / (L + 1)) + xs.length / (L + 1) := by ring
    rw [hmul] at hmod
    rw [ntileChunks] at hc
    rcases List.mem_cons.mp hc with hhead | htail
    · subst hhead
      rw [List.length_take]
      by_cases hr : xs.length % (L + 1) = 0
      · left
        simp only [hr, if_true]
        omega
      · right
        simp only [hr, if_false]
        omega
    · rcases Nat.eq_zero_or_pos L with hL0 | hL1
      · subst hL0
        simp [ntileChunks] at htail
      · have hres := ih (xs.drop (xs.length / (L + 1)
          + (if xs.length % (L + 1) = 0 then 0 else 1))) c hL1 htail
        rw [List.length_drop] at hres
        by_cases hr : xs.length % (L + 1) = 0
        · have hm : xs.length - (xs.length / (L + 1)
              + (if xs.length % (L + 1) = 0 then 0 else 1))
              = L * (xs.length / (L + 1)) := by
            simp only [hr, if_true]
            omega
          rw [hm, Nat.mul_div_cancel_left _ hL1] at hres
          exact hres
        · have hm : xs.length - (xs.length / (L + 1)
              + (if xs.length % (L + 1) = 0 then 0 else 1))
              = (xs.length % (L + 1) - 1) + L * (xs.length / (L + 1)) := by
            simp only [hr, if_false]
            omega
          have hmodlt : xs.length % (L + 1) < L + 1 := Nat.mod_lt _ (by omega)
          rw [hm, Nat.add_mul_div_left _ _ hL1,
            Nat.div_eq_of_lt (by omega : xs.length % (L + 1) - 1 < L)] at hres
          simpa using hres

theorem ntileChunks_chunk_subset {α : Type _} (L : Nat) :
    ∀ (xs c : List α), c ∈ ntileChunks L xs → ∀ p ∈ c, p ∈ xs := by
  induction L with
  | zero => intro xs c hc; simp [ntileChunks] at hc
  | succ L ih =>
    intro xs c hc p hp
    rw [ntileChunks] at hc
    rcases List.mem_cons.mp hc with hhead | htail
    · exact List.mem_of_mem_take (hhead ▸ hp)
    · exact List.mem_of_mem_drop (ih _ c htail p hp)

/-- With the cross-section ordered by factor value descending, every member of the
first tile dominates every member of every later tile. -/
theorem ntileChunks_head_top (L : Nat) (xs c1 : List (ℚ × ℚ)) (rest : List (List (ℚ × ℚ)))
    (hsorted : xs.Pairwise (fun a b => b.1 ≤ a.1))
    (hchunks : ntileChunks L xs = c1 :: rest) :
    ∀ c2 ∈ rest, ∀ p ∈ c1, ∀ q ∈ c2, q.1 ≤ p.1 := by
  rcases L with _ | L
  · simp [ntileChunks] at hchunks
  · rw [ntileChunks] at hchunks
    injection hchunks with hc1 hrest
    intro c2 hc2 p hp q hq
    have hqdrop : q ∈ xs.drop (xs.length / (L + 1)
        + (if xs.length % (L + 1) = 0 then 0 else 1)) :=
      ntileChunks_chunk_subset L _ c2 (hrest ▸ hc2) q hq
    have hptake : p ∈ xs.take (xs.length / (L + 1)
        + (if xs.length % (L + 1) = 0 then 0 else 1)) := hc1 ▸ hp
    have hsplit := List.take_append_drop (xs.length / (L + 1)
        + (if xs.length % (L + 1) = 0 then 0 else 1)) xs
    rw [← hsplit] at hsorted
    exact (List.pairwise_append.mp hsorted).2.2 p hptake q hqdrop

theorem sum_layerRow_n (factor : String) (h : Nat) (d : Int) :
    ∀ (chunks : List (List (ℚ × ℚ))) (i : Nat),
      (((chunks.enumFrom i).filterMap (fun kc =>
          if kc.2.length = 0 then none
          else some (⟨factor, h, d, kc.1 + 1, kc.2.length,
            meanOf (kc.2.map Prod.snd)⟩ : LayerRow))).map LayerRow.n).sum
        = (chunks.map List.length).sum := by
  intro chunks
  induction chunks with
  | nil => intro i; simp
  | cons c t ih =>
    intro i
    rw [List.enumFrom_cons]
    by_cases hc : c.length = 0
    · simp only [List.filterMap_cons, hc, if_true, List.map_cons, List.sum_cons]
      rw [ih (i + 1)]
      omega
    · simp only [List.filterMap_cons, hc, if_false, List.map_cons, List.sum_cons]
      rw [ih (i + 1)]

/-- Every emitted layer row corresponds to a non-empty NTILE chunk with its count. -/
theorem dayLayerRows_mem (factor : String) (h L : Nat) (d : Int) (xs : List (ℚ × ℚ))
    (row : LayerRow) (hrow : row ∈ dayLayerRows factor h L d xs) :
    ∃ c ∈ ntileChunks L xs, row.n = c.length ∧ 1 ≤ c.length := by
  rcases List.mem_filterMap.mp hrow with ⟨kc, hkc, hsome⟩
  by_cases hc : kc.2.length = 0
  · rw [if_pos hc] at hsome
    exact absurd hsome (by simp)
  · rw [if_neg hc] at hsome
    injection hsome with hrow'
    subst hrow'
    exact ⟨kc.2, List.snd_mem_of_mem_enum hkc, rfl, by omega⟩

/-- Claim C7 (confirmed): per trading day, over the day's cross-section in the
window's descending factor order, the emitted layer sample counts sum to the day's
eligible cross-sectional count `n`, every emitted layer is non-empty, any two
emitted layer sizes differ by at most one, and every member of layer 1 (the first
tile) has a factor value at least that of any member of any later tile. -/
theorem C7_layer_partition (factor : String) (h L : Nat) (d : Int)
    (base : List BaseRow) (xs : List (ℚ × ℚ)) (hL : 1 ≤ L)
    (hxs : xs = sortPairsDesc (dayPairs base d))
    (hsorted : xs.Pairwise (fun a b => b.1 ≤ a.1)) :
    ((dayLayerRows factor h L d xs).map LayerRow.n).sum = (dayPairs base d).length ∧
    (∀ row ∈ dayLayerRows factor h L d xs, 1 ≤ row.n) ∧
    (∀ r1 ∈ dayLayerRows factor h L d xs, ∀ r2 ∈ dayLayerRows factor h L d xs,
      r1.n ≤ r2.n + 1) ∧
    (∀ c1 rest, ntileChunks L xs = c1 :: rest →
      ∀ c2 ∈ rest, ∀ p ∈ c1, ∀ q ∈ c2, q.1 ≤ p.1) := by
  refine ⟨?_, ?_, ?_, ?_⟩
  · unfold dayLayerRows
    rw [List.enum, sum_layerRow_n factor h d (ntileChunks L xs) 0,
      ntileChunks_sum_length L hL xs, hxs]
    exact (List.perm_insertionSort _ (dayPairs base d)).length_eq
  · intro row hrow
    obtain ⟨c, _, hn, hpos⟩ := dayLayerRows_mem factor h L d xs row hrow
    omega
  · intro r1 h1 r2 h2
    obtain ⟨c1, hc1, hn1, _⟩ := dayLayerRows_mem factor h L d xs r1 h1
    obtain ⟨c2, hc2, hn2, _⟩ := dayLayerRows_mem factor h L d xs r2 h2
    rcases ntileChunks_length_mem L xs c1 hL hc1 with e1 | e1 <;>
      rcases ntileChunks_length_mem L xs c2 hL hc2 with e2 | e2 <;> omega
  · intro c1 rest hchunks c2 hc2 p hp q hq
    exact ntileChunks_head_top L xs c1 rest hsorted hchunks c2 hc2 p hp q hq

/-- Witness for C7 at a concrete three-stock day split into two layers. -/
theorem C7_layer_partition_witness :
    ((([(3, 1 / 10), (2, 1 / 5), (1, 3 / 10)] : List (ℚ × ℚ))
        = sortPairsDesc (dayPairs [⟨0, "A", 3, 1 / 10⟩, ⟨0, "B", 2, 1 / 5⟩,
            ⟨0, "C", 1, 3 / 10⟩] 0)) ∧
      (([(3, 1 / 10), (2, 1 / 5), (1, 3 / 10)] : List (ℚ × ℚ)).Pairwise
        (fun a b => b.1 ≤ a.1))) ∧
    ((dayLayerRows "total_score" 5 2 0
        [(3, 1 / 10), (2, 1 / 5), (1, 3 / 10)]).map LayerRow.n).sum
      = (dayPairs [⟨0, "A", 3, 1 / 10⟩, ⟨0, "B", 2, 1 / 5⟩, ⟨0, "C", 1, 3 / 10⟩] 0).length := by
  have hxs : (([(3, 1 / 10), (2, 1 / 5), (1, 3 / 10)] : List (ℚ × ℚ))
      = sortPairsDesc (dayPairs [⟨0, "A", 3, 1 / 10⟩, ⟨0, "B", 2, 1 / 5⟩,
          ⟨0, "C", 1, 3 / 10⟩] 0)) := by
    norm_num [sortPairsDesc, dayPairs, List.insertionSort, List.orderedInsert]
  have hsorted : (([(3, 1 / 10), (2, 1 / 5), (1, 3 / 10)] : List (ℚ × ℚ)).Pairwise
      (fun a b => b.1 ≤ a.1)) := by
    norm_num [List.pairwise_cons]
  exact ⟨⟨hxs, hsorted⟩,
    (C7_layer_partition "total_score" 5 2 0
      [⟨0, "A", 3, 1 / 10⟩, ⟨0, "B", 2, 1 / 5⟩, ⟨0, "C", 1, 3 / 10⟩]
      [(3, 1 / 10), (2, 1 / 5), (1, 3 / 10)] (by norm_num) hxs hsorted).1⟩


/-! ### Eligibility application across cross-sections (claim C5) -/

theorem mem_scoreCTE_elim (scores : List ScoreRow) (basics : List BasicRow) (s e : Int)
    (t : ScRow) (ht : t ∈ scoreCTE scores basics s e) :
    ∃ r ∈ scores, r.factor_val = some t.factor_val ∧ r.ts_code = t.ts_code ∧
      r.trade_date = t.trade_date ∧ s ≤ t.trade_date ∧ t.trade_date ≤ e ∧
      basicOk basics t.ts_code = true := by
  rcases List.mem_filterMap.mp ht with ⟨r, hr, hsome⟩
  split at hsome
  · exact absurd hsome (by simp)
  · rename_i v hv
    split at hsome
    · rename_i hcond
      injection hsome with ht'
      subst ht'
      simp only [Bool.and_eq_true, decide_eq_true_eq] at hcond
      exact ⟨r, hr, hv, rfl, rfl, hcond.1.1, hcond.1.2, hcond.2⟩
    · exact absurd hsome (by simp)

/-- Counterexample to claim C5 as stated: a special-treatment stock (`is_st = 1`)
with a score is not eligible (its bar fails the trading filter) and is absent from
the IC cross-section, yet the holdings query — whose `score` CTE never joins the
price bars — still selects it into the persisted holdings snapshot. -/
theorem C5_counterexample :
    eligible_full [⟨"A", some 1, some 1⟩] [⟨"A", 0, some 10, some 1, some 1⟩] "A" 0
      = false ∧
    icBase [⟨"A", 0, some 5⟩] [⟨"A", some 1, some 1⟩]
      [⟨"A", 0, some 10, some 1, some 1⟩] 0 0 1 = [] ∧
    (holdingsTable "TOP1_f_H1_D" [⟨"A", 0, some 5⟩] [⟨"A", some 1, some 1⟩] 0 0 1).map
      HoldRow.ts_code = ["A"] := by
  refine ⟨?_, ?_, ?_⟩
  · rfl
  · rfl
  · simp [holdingsTable, scoreCTE, basicOk, isnull, dayPickScore, sortScoreDesc,
      List.insertionSort, List.orderedInsert]

/-- Claim C5 (amended): the full eligibility predicate is applied identically where
the (factor, forward-return) cross-section is formed — the IC day, the layer day and
the NAV return day share one base construction — but the persisted holdings
selection applies only the security-type and listing-status conditions (with a
non-null factor value in the requested range): it never consults `trading_active`
or `is_special_treatment`. -/
theorem C5_eligibility_application (scores : List ScoreRow) (basics : List BasicRow)
    (ks : List KlineRow) (s e : Int) (h : Nat) (topn : Nat) (pc : String) :
    icBase scores basics ks s e h = layerBase scores basics ks s e h ∧
    layerBase scores basics ks s e h = navRetBase scores basics ks s e h ∧
    (∀ row ∈ holdingsTable pc scores basics s e topn,
      ∃ srow ∈ scores, srow.ts_code = row.ts_code ∧ srow.trade_date = row.trade_date ∧
        (∃ v, srow.factor_val = some v) ∧ s ≤ row.trade_date ∧ row.trade_date ≤ e ∧
        basicOk basics row.ts_code = true) := by
  refine ⟨rfl, rfl, ?_⟩
  intro row hrow
  rcases List.mem_flatMap.mp hrow with ⟨d, hd, hmem⟩
  rcases List.mem_map.mp hmem with ⟨ir, hir, heq⟩
  have hpick : ir.2 ∈ dayPickScore
      ((scoreCTE scores basics s e).filter (fun r => r.trade_date == d)) topn :=
    List.snd_mem_of_mem_enum hir
  have hsort : ir.2 ∈ sortScoreDesc
      ((scoreCTE scores basics s e).filter (fun r => r.trade_date == d)) :=
    List.mem_of_mem_take hpick
  have hfil : ir.2 ∈ (scoreCTE scores basics s e).filter (fun r => r.trade_date == d) :=
    (List.perm_insertionSort _ _).mem_iff.mp hsort
  rcases List.mem_filter.mp hfil with ⟨hsc, hdate⟩
  have hdated : ir.2.trade_date = d := by simpa using hdate
  obtain ⟨srow, hsrow, hval, hcode, hdate', hs1, hs2, hs3⟩ :=
    mem_scoreCTE_elim scores basics s e ir.2 hsc
  subst heq
  refine ⟨srow, hsrow, hcode, ?_, ⟨ir.2.factor_val, hval⟩, ?_, ?_, hs3⟩
  · show srow.trade_date = d
    rw [hdate', hdated]
  · show s ≤ d
    rw [← hdated]
    exact hs1
  · show d ≤ e
    rw [← hdated]
    exact hs2

/-- Witness for C5: the amended statement instantiated at a concrete feed. -/
theorem C5_eligibility_application_witness :
    icBase [⟨"B", 0, some 7⟩] [⟨"B", some 1, some 1⟩]
        [⟨"B", 0, some 10, some 1, some 0⟩] 0 0 1
      = layerBase [⟨"B", 0, some 7⟩] [⟨"B", some 1, some 1⟩]
        [⟨"B", 0, some 10, some 1, some 0⟩] 0 0 1 ∧
    (∀ row ∈ holdingsTable "TOP1_g_H1_D" [⟨"B", 0, some 7⟩] [⟨"B", some 1, some 1⟩] 0 0 1,
      ∃ srow ∈ ([⟨"B", 0, some 7⟩] : List ScoreRow), srow.ts_code = row.ts_code ∧
        srow.trade_date = row.trade_date ∧ (∃ v, srow.factor_val = some v) ∧
        (0 : Int) ≤ row.trade_date ∧ row.trade_date ≤ 0 ∧
        basicOk [⟨"B", some 1, some 1⟩] row.ts_code = true) :=
  ⟨(C5_eligibility_application [⟨"B", 0, some 7⟩] [⟨"B", some 1, some 1⟩]
      [⟨"B", 0, some 10, some 1, some 0⟩] 0 0 1 1 "TOP1_g_H1_D").1,
   (C5_eligibility_application [⟨"B", 0, some 7⟩] [⟨"B", some 1, some 1⟩]
      [⟨"B", 0, some 10, some 1, some 0⟩] 0 0 1 1 "TOP1_g_H1_D").2.2⟩


/-! ### Idempotent delete-then-insert (claim C8) -/

theorem delete_insert_idem {α : Type _} (p : α → Bool) (newRows old : List α)
    (hmem : ∀ r ∈ newRows, p r = true) :
    (old.filter (fun r => !(p r)) ++ newRows).filter (fun r => !(p r)) ++ newRows
      = old.filter (fun r => !(p r)) ++ newRows := by
  rw [List.filter_append]
  have h1 : (old.filter (fun r => !(p r))).filter (fun r => !(p r))
      = old.filter (fun r => !(p r)) := by
    simp [List.filter_filter]
  have h2 : newRows.filter (fun r => !(p r)) = [] := by
    rw [List.filter_eq_nil_iff]
    intro a ha
    simp [hmem a ha]
  rw [h1, h2, List.append_nil]

theorem mem_baseCTE_dates (scores : List ScoreRow) (basics : List BasicRow)
    (ks : List KlineRow) (s e : Int) (h : Nat) (r : BaseRow)
    (hr : r ∈ baseCTE scores basics ks s e h) :
    s ≤ r.trade_date ∧ r.trade_date ≤ e := by
  rcases List.mem_filterMap.mp hr with ⟨t, ht, hsome⟩
  obtain ⟨_, _, _, _, _, hts, hte, _⟩ := mem_scoreCTE_elim scores basics s e t ht
  split at hsome
  · exact absurd hsome (by simp)
  · split at hsome
    · exact absurd hsome (by simp)
    · injection hsome with hr'
      subst hr'
      exact ⟨hts, hte⟩

theorem icTable_keyed (factor : String) (icH : Nat) (minN : Int) (s e : Int)
    (scores : List ScoreRow) (basics : List BasicRow) (ks : List KlineRow) :
    ∀ r ∈ icTable factor icH minN (icBase scores basics ks s e icH),
      keyIC factor icH s e r = true := by
  intro r hr
  rcases List.mem_filterMap.mp hr with ⟨d, hd, hsome⟩
  split at hsome
  · injection hsome with hr'
    subst hr'
    rcases (List.mem_map.mp (List.mem_dedup.mp hd)) with ⟨b, hb, rfl⟩
    obtain ⟨h1, h2⟩ := mem_baseCTE_dates scores basics ks s e icH b hb
    simp [keyIC, h1, h2]
  · exact absurd hsome (by simp)

theorem layerTable_keyed (factor : String) (icH L : Nat) (s e : Int)
    (scores : List ScoreRow) (basics : List BasicRow) (ks : List KlineRow) :
    ∀ r ∈ layerTable factor icH L (layerBase scores basics ks s e icH),
      keyLayer factor icH s e r = true := by
  intro r hr
  rcases List.mem_flatMap.mp hr with ⟨d, hd, hmem⟩
  rcases List.mem_filterMap.mp hmem with ⟨kc, _, hsome⟩
  split at hsome
  · exact absurd hsome (by simp)
  · injection hsome with hr'
    subst hr'
    rcases (List.mem_map.mp (List.mem_dedup.mp hd)) with ⟨b, hb, rfl⟩
    obtain ⟨h1, h2⟩ := mem_baseCTE_dates scores basics ks s e icH b hb
    simp [keyLayer, h1, h2]

theorem holdingsTable_keyed (pc : String) (topn : Nat) (s e : Int)
    (scores : List ScoreRow) (basics : List BasicRow) :
    ∀ r ∈ holdingsTable pc scores basics s e topn, keyHold pc s e r = true := by
  intro r hr
  rcases List.mem_flatMap.mp hr with ⟨d, hd, hmem⟩
  rcases List.mem_map.mp hmem with ⟨ir, _, heq⟩
  subst heq
  rcases (List.mem_map.mp (List.mem_dedup.mp hd)) with ⟨t, ht, rfl⟩
  obtain ⟨_, _, _, _, _, h1, h2, _⟩ := mem_scoreCTE_elim scores basics s e t ht
  simp [keyHold, h1, h2]

theorem navLoop_pc (pc : String) (retMap : Int → Option ℚ) (cntMap : Int → Option Int) :
    ∀ (ds : List Int) (prev : Int) (nav : ℚ) (r : NavRow),
      r ∈ navLoop pc retMap cntMap prev nav ds → r.portfolio_code = pc := by
  intro ds
  induction ds with
  | nil => intro prev nav r hr; simp [navLoop] at hr
  | cons d rest ih =>
    intro prev nav r hr
    rcases hrm : retMap prev with _ | v <;> rw [navLoop, hrm] at hr <;>
      rcases List.mem_cons.mp hr with hhead | htail
    · subst hhead; rfl
    · exact ih d nav r htail
    · subst hhead; rfl
    · exact ih d (nav * (1 + v)) r htail

theorem calc_nav_rows_mem (pc : String) (retMap : Int → Option ℚ)
    (cntMap : Int → Option Int) (ds : List Int) (r : NavRow)
    (hr : r ∈ calc_portfolio_nav_rows pc retMap cntMap ds) :
    r.portfolio_code = pc ∧ r.trade_date ∈ ds := by
  rcases ds with _ | ⟨d0, rest⟩
  · simp [calc_portfolio_nav_rows] at hr
  · rw [calc_portfolio_nav_rows] at hr
    constructor
    · rcases List.mem_cons.mp hr with hhead | htail
      · subst hhead; rfl
      · exact navLoop_pc pc retMap cntMap rest d0 1 r htail
    · rcases List.mem_cons.mp hr with hhead | htail
      · subst hhead
        exact List.mem_cons_self _ _
      · have hmem := List.mem_map_of_mem NavRow.trade_date htail
        rw [navLoop_map_dates pc retMap cntMap rest d0 1] at hmem
        exact List.mem_cons_of_mem _ hmem

theorem navTable_keyed (pc : String) (s e : Int) (hnav topn : Nat)
    (scores : List ScoreRow) (basics : List BasicRow) (ks : List KlineRow) :
    ∀ r ∈ navTable pc scores basics ks s e hnav topn, keyNav pc s e r = true := by
  intro r hr
  obtain ⟨hpc, hdmem⟩ := calc_nav_rows_mem pc
    (ret_map_of (navRetBase scores basics ks s e hnav) topn)
    (cnt_map_of (navRetBase scores basics ks s e hnav) topn)
    (calDatesOf ks s e) r hr
  rcases List.mem_filter.mp hdmem with ⟨_, hbound⟩
  simp only [Bool.and_eq_true, decide_eq_true_eq] at hbound
  simp [keyNav, hpc, hbound.1, hbound.2]

/-- Claim C8 (confirmed): re-running the same computation over the same key space
with unchanged feeds is idempotent — the second run deletes exactly the rows it
re-inserts, leaving all four result tables identical. -/
theorem C8_idempotent_recompute (factor : String) (icH L : Nat) (minN : Int)
    (hnav topn : Nat) (scores : List ScoreRow) (basics : List BasicRow)
    (ks : List KlineRow) (s e : Int) (st : DBState) :
    backtest_run factor icH L minN hnav topn scores basics ks s e
        (backtest_run factor icH L minN hnav topn scores basics ks s e st)
      = backtest_run factor icH L minN hnav topn scores basics ks s e st := by
  unfold backtest_run
  simp only []
  congr 1
  · exact delete_insert_idem (keyIC factor icH s e) _ st.ic
      (icTable_keyed factor icH minN s e scores basics ks)
  · exact delete_insert_idem (keyLayer factor icH s e) _ st.layer
      (layerTable_keyed factor icH L s e scores basics ks)
  · exact delete_insert_idem (keyHold (portfolio_code_of topn factor hnav) s e) _ st.hold
      (holdingsTable_keyed (portfolio_code_of topn factor hnav) topn s e scores basics)
  · exact delete_insert_idem (keyNav (portfolio_code_of topn factor hnav) s e) _ st.nav
      (navTable_keyed (portfolio_code_of topn factor hnav) s e hnav topn scores basics ks)

/-! ### Transaction flow of `main` (claims C4, C9, C10) -/

theorem execList_committed (failAt : WOp → Bool) :
    ∀ (ops : List WOp) (c : Conn), (execList failAt c ops).1.committed = c.committed := by
  intro ops
  induction ops with
  | nil => intro c; rfl
  | cons op rest ih =>
    intro c
    rw [execList]
    by_cases hop : failAt op
    · rw [if_pos hop]
    · rw [if_neg hop, ih]
      rfl

theorem execList_pending_of_ok (failAt : WOp → Bool) :
    ∀ (ops : List WOp) (c : Conn), (execList failAt c ops).2 = true →
      (execList failAt c ops).1.pending = c.pending ++ ops := by
  intro ops
  induction ops with
  | nil => intro c _; simp [execList]
  | cons op rest ih =>
    intro c hok
    rw [execList] at hok ⊢
    by_cases hop : failAt op
    · rw [if_pos hop] at hok
      exact absurd hok (by simp)
    · rw [if_neg hop] at hok ⊢
      rw [ih _ hok]
      simp [execOp]

theorem execList_trace_of_fail (failAt : WOp → Bool) :
    ∀ (ops : List WOp) (c : Conn),
      ∃ pre : List WOp, (execList failAt c ops).1.trace = c.trace ++ pre ∧
        ∀ op ∈ pre, op ∈ ops := by
  intro ops
  induction ops with
  | nil => intro c; exact ⟨[], by simp [execList], by simp⟩
  | cons op rest ih =>
    intro c
    rw [execList]
    by_cases hop : failAt op
    · rw [if_pos hop]
      exact ⟨[], by simp, by simp⟩
    · rw [if_neg hop]
      obtain ⟨pre, hpre, hmem⟩ := ih (execOp c op)
      refine ⟨op :: pre, ?_, ?_⟩
      · rw [hpre]
        simp [execOp]
      · intro x hx
        rcases List.mem_cons.mp hx with rfl | hx'
        · exact List.mem_cons_self _ _
        · exact List.mem_cons_of_mem _ (hmem x hx')

theorem ops_filter_result (fs : List String) :
    ((fs.flatMap (fun f => icLayerOps f ++ navOps f)).filter isResultOp)
      = fs.flatMap (fun f => icLayerOps f ++ navOps f) := by
  induction fs with
  | nil => rfl
  | cons f rest ih =>
    rw [List.flatMap_cons, List.filter_append, ih]
    congr 1

/-- Counterexample to claim C4 as stated: in a two-factor run where persisting the
second factor fails, the first factor's freshly computed rows are not committed —
`main` commits once after the whole loop, so the failure rolls back factor 1's
writes as well, though they had been executed (they are in the trace). -/
theorem C4_counterexample :
    (runMain ⟨"f1,f2", 0, 1⟩ ["f1", "f2"] false
        (fun op => op == WOp.delRows "dws_factor_ic_daily" "f2") false ⟨[], [], []⟩).2
      = false ∧
    WOp.insRows "dws_factor_ic_daily" "f1" ∉
      (runMain ⟨"f1,f2", 0, 1⟩ ["f1", "f2"] false
        (fun op => op == WOp.delRows "dws_factor_ic_daily" "f2") false ⟨[], [], []⟩).1.committed ∧
    WOp.insRows "dws_factor_ic_daily" "f1" ∈
      (runMain ⟨"f1,f2", 0, 1⟩ ["f1", "f2"] false
        (fun op => op == WOp.delRows "dws_factor_ic_daily" "f2") false ⟨[], [], []⟩).1.trace := by
  refine ⟨?_, ?_, ?_⟩ <;> decide

/-- Claim C4 (amended): the whole multi-factor run is one transaction committed after
the loop: on any persistence failure nothing this run wrote to the result tables is
durable — including previously processed factors' fresh rows — and on success all
factors' operations are durable together, so a reader still never observes a
half-updated factor (it sees the pre-run state or the full post-run state). -/
theorem C4_run_transaction (a : RunArgs) (cols : List String) (failAt : WOp → Bool)
    (logFails : Bool) (scoreEmpty : Bool) (initC initT : List WOp) :
    (runMain a cols scoreEmpty failAt logFails
        ⟨initC, [], initT⟩).1.committed.filter isResultOp
      = initC.filter isResultOp ++
        (if (runMain a cols scoreEmpty failAt logFails ⟨initC, [], initT⟩).2 then
          (factorsOf a.factor cols).flatMap (fun f => icLayerOps f ++ navOps f)
        else []) := by
  unfold runMain mainPhase tryPhase
  by_cases h1 : scoreEmpty
  · by_cases hlf : logFails <;>
      simp [h1, hlf, execOp, commitConn, rollbackConn, log_run, isResultOp,
        List.filter_append]
  · by_cases h2 : a.stop < a.start
    · by_cases hlf : logFails <;>
        simp [h1, h2, hlf, execOp, commitConn, rollbackConn, log_run, isResultOp,
          List.filter_append]
    · by_cases h3 : ((factorsOf a.factor cols).all fun f => validate_factor_name f cols)
      · simp only [h1, if_false, h2, decide_eq_true_eq, h3, if_true]
        have hcom := execList_committed failAt
          ((factorsOf a.factor cols).flatMap (fun f => icLayerOps f ++ navOps f))
          (execOp ⟨initC, [], initT⟩ WOp.schemaEnsure)
        simp only [execOp, List.nil_append] at hcom
        by_cases h4 : (execList failAt (execOp ⟨initC, [], initT⟩ WOp.schemaEnsure)
            ((factorsOf a.factor cols).flatMap (fun f => icLayerOps f ++ navOps f))).2
        · have hpen := execList_pending_of_ok failAt
            ((factorsOf a.factor cols).flatMap (fun f => icLayerOps f ++ navOps f))
            (execOp ⟨initC, [], initT⟩ WOp.schemaEnsure) h4
          simp only [execOp, List.nil_append] at hpen
          simp only [execOp, List.nil_append] at h4
          by_cases hlf : logFails <;>
            simp [h4, hlf, execOp, commitConn, log_run, hcom, hpen, isResultOp,
              List.filter_append, ops_filter_result]
        · simp only [execOp, List.nil_append] at h4
          by_cases hlf : logFails <;>
            simp [h4, hlf, execOp, commitConn, rollbackConn, log_run, hcom, isResultOp,
              List.filter_append]
      · by_cases hlf : logFails <;>
          simp [h1, h2, h3, hlf, execOp, commitConn, rollbackConn, log_run, isResultOp,
            List.filter_append]

/-- Claim C9 (confirmed): a malformed factor name, a factor absent from the score
feed's columns, or `start > end` makes the run fail validation and abort: the exit
flag is false, and no delete or insert against a result table was even executed —
neither the durable state nor the operation trace gains any result-table operation. -/
theorem C9_validation_aborts (a : RunArgs) (cols : List String) (failAt : WOp → Bool)
    (logFails : Bool) (c0 : Conn)
    (hinvalid : ((factorsOf a.factor cols).all
        (fun f => validate_factor_name f cols)) = false ∨ a.start > a.stop) :
    (runMain a cols false failAt logFails c0).2 = false ∧
    (runMain a cols false failAt logFails c0).1.trace.filter isResultOp
      = c0.trace.filter isResultOp ∧
    (runMain a cols false failAt logFails c0).1.committed.filter isResultOp
      = c0.committed.filter isResultOp := by
  unfold runMain mainPhase tryPhase
  by_cases h2 : a.stop < a.start
  · by_cases hlf : logFails <;>
      simp [h2, hlf, execOp, rollbackConn, commitConn, log_run, isResultOp,
        List.filter_append]
  · have h3 : ((factorsOf a.factor cols).all
        (fun f => validate_factor_name f cols)) = false := by
      rcases hinvalid with h | h
      · exact h
      · omega
    by_cases hlf : logFails <;>
      simp [h2, h3, hlf, execOp, rollbackConn, commitConn, log_run, isResultOp,
        List.filter_append]

/-- Witness for C9: a factor name containing a space aborts before any result write. -/
theorem C9_validation_aborts_witness :
    (((factorsOf "a b" ["total_score"]).all
        (fun f => validate_factor_name f ["total_score"])) = false ∨ (0 : Int) > 0) ∧
    (runMain ⟨"a b", 0, 0⟩ ["total_score"] false (fun _ => false) false
        ⟨[], [], []⟩).2 = false ∧
    (runMain ⟨"a b", 0, 0⟩ ["total_score"] false (fun _ => false) false
        ⟨[], [], []⟩).1.trace.filter isResultOp = ([] : List WOp).filter isResultOp := by
  have hv : (((factorsOf "a b" ["total_score"]).all
      (fun f => validate_factor_name f ["total_score"])) = false ∨ (0 : Int) > 0) :=
    Or.inl (by decide)
  have hres := C9_validation_aborts ⟨"a b", 0, 0⟩ ["total_score"] (fun _ => false) false
    ⟨[], [], []⟩ hv
  exact ⟨hv, hres.1, hres.2.1⟩

/-- Claim C10 (confirmed): `log_run` swallows a failing run-log insert — it is a
total function, so nothing propagates — and the run's success flag, its committed
result rows and in fact everything except the log row itself are identical whether
or not the log insert succeeded. -/
theorem C10_log_failure_isolated (a : RunArgs) (cols : List String) (scoreEmpty : Bool)
    (failAt : WOp → Bool) (c0 : Conn) :
    (runMain a cols scoreEmpty failAt true c0).2
      = (runMain a cols scoreEmpty failAt false c0).2 ∧
    (runMain a cols scoreEmpty failAt true c0).1.committed.filter (fun op => !(isLogOp op))
      = (runMain a cols scoreEmpty failAt false c0).1.committed.filter
          (fun op => !(isLogOp op)) ∧
    (runMain a cols scoreEmpty failAt true c0).1.committed.filter isResultOp
      = (runMain a cols scoreEmpty failAt false c0).1.committed.filter isResultOp := by
  unfold runMain
  refine ⟨rfl, ?_, ?_⟩ <;>
    simp [log_run, commitConn, execOp, List.filter_append, isLogOp, isResultOp]


end Backtest
